import Mathlib

/-!
# ZkStorage: commitment and envelope-encryption core, formalised

A shallow embedding of the cryptographic commitment and envelope-encryption
subsystem of the ZkStorage repository:

* the Merkle utilities (`sha256`, `hashPair`, `createMerkleTree`,
  `createCommitment`, `generateProof`, `verifyProof`,
  `createCommitmentWithMetadata`) of the commitment module;
* the Seal layer (`encryptWithSeal`, `decryptWithSeal`, `serializeEnvelope`,
  `deserializeEnvelope`, `verifyConsent`) of `frontend/lib/seal.ts`.

Byte arrays (`Uint8Array`) are modelled as `List Nat`; digest strings as
`String`.  The platform primitives the code calls (SHA-256 via
`crypto.subtle`, the AES-GCM cipher, `TextEncoder`/`TextDecoder`,
`JSON.stringify`/`JSON.parse`) are not part of the repository; they are
modelled: SHA-256 and the AES-GCM key stream and tag are abstract function
parameters (the theorems hold for every choice), while UTF-8 and JSON are
given concrete executable models whose behaviour matches the platform
functions on the inputs the theorems exercise.
-/

namespace ZkStorage

/-! ## UTF-8 (model of TextEncoder / TextDecoder)

`TextEncoder.encode` produces the UTF-8 bytes of a string;
`TextDecoder.decode` (default options) decodes UTF-8, replacing invalid
sequences with U+FFFD rather than failing.  The decoder below is written
with a step-count fuel so that it is structurally recursive and evaluates
inside the kernel; each step consumes at least one byte, so a fuel equal
to the byte count always suffices. -/

/-- Injectivity of `Char.toNat`. -/
theorem char_toNat_inj {a b : Char} (h : a.toNat = b.toNat) : a = b :=
  Char.ext (UInt32.ext h)

/-- `Char.ofNat` at a valid scalar value carries exactly that value. -/
theorem toNat_ofNat_valid {n : Nat} (h : n.isValidChar) : (Char.ofNat n).toNat = n := by
  simp [Char.ofNat, h]
  rfl

/-- Modelled from the spec: UTF-8 bytes of a single character
(`TextEncoder`). -/
def utf8EncodeChar (c : Char) : List Nat :=
  let n := c.toNat
  if n < 0x80 then [n]
  else if n < 0x800 then [0xC0 + n / 64, 0x80 + n % 64]
  else if n < 0x10000 then [0xE0 + n / 4096, 0x80 + n / 64 % 64, 0x80 + n % 64]
  else [0xF0 + n / 262144, 0x80 + n / 4096 % 64, 0x80 + n / 64 % 64, 0x80 + n % 64]

/-- Modelled from the spec: UTF-8 encoding of a character list
(`TextEncoder.encode`). -/
def utf8Encode (cs : List Char) : List Nat :=
  cs.foldr (fun c acc => utf8EncodeChar c ++ acc) []

theorem utf8Encode_nil : utf8Encode [] = [] := rfl

theorem utf8Encode_cons (c : Char) (cs : List Char) :
    utf8Encode (c :: cs) = utf8EncodeChar c ++ utf8Encode cs := rfl

/-- The replacement character U+FFFD emitted for invalid byte sequences. -/
def repChar : Char := Char.ofNat 0xFFFD

/-- Modelled from the spec: fuelled UTF-8 decoding with replacement on
error (`TextDecoder.decode`, default non-fatal options).  Invalid input
emits U+FFFD and resynchronises at the offending byte. -/
def utf8DecodeF : Nat → List Nat → List Char
  | _, [] => []
  | 0, _ :: _ => []
  | fuel + 1, b :: rest =>
    if b < 0x80 then Char.ofNat b :: utf8DecodeF fuel rest
    else if 0xC2 ≤ b ∧ b ≤ 0xDF then
      match rest with
      | b2 :: rest2 =>
        if 0x80 ≤ b2 ∧ b2 ≤ 0xBF then
          Char.ofNat ((b - 0xC0) * 64 + (b2 - 0x80)) :: utf8DecodeF fuel rest2
        else repChar :: utf8DecodeF fuel (b2 :: rest2)
      | [] => [repChar]
    else if 0xE0 ≤ b ∧ b ≤ 0xEF then
      match rest with
      | b2 :: rest2 =>
        if (if b = 0xE0 then 0xA0 else 0x80) ≤ b2 ∧ b2 ≤ (if b = 0xED then 0x9F else 0xBF) then
          match rest2 with
          | b3 :: rest3 =>
            if 0x80 ≤ b3 ∧ b3 ≤ 0xBF then
              Char.ofNat ((b - 0xE0) * 4096 + (b2 - 0x80) * 64 + (b3 - 0x80))
                :: utf8DecodeF fuel rest3
            else repChar :: utf8DecodeF fuel (b3 :: rest3)
          | [] => [repChar]
        else repChar :: utf8DecodeF fuel (b2 :: rest2)
      | [] => [repChar]
    else if 0xF0 ≤ b ∧ b ≤ 0xF4 then
      match rest with
      | b2 :: rest2 =>
        if (if b = 0xF0 then 0x90 else 0x80) ≤ b2 ∧ b2 ≤ (if b = 0xF4 then 0x8F else 0xBF) then
          match rest2 with
          | b3 :: rest3 =>
            if 0x80 ≤ b3 ∧ b3 ≤ 0xBF then
              match rest3 with
              | b4 :: rest4 =>
                if 0x80 ≤ b4 ∧ b4 ≤ 0xBF then
                  Char.ofNat ((b - 0xF0) * 262144 + (b2 - 0x80) * 4096 + (b3 - 0x80) * 64
                    + (b4 - 0x80)) :: utf8DecodeF fuel rest4
                else repChar :: utf8DecodeF fuel (b4 :: rest4)
              | [] => [repChar]
            else repChar :: utf8DecodeF fuel (b3 :: rest3)
          | [] => [repChar]
        else repChar :: utf8DecodeF fuel (b2 :: rest2)
      | [] => [repChar]
    else repChar :: utf8DecodeF fuel rest

/-- UTF-8 decoding with replacement characters; `textDecode` below adds
the byte-order-mark removal of `TextDecoder.decode`. -/
def utf8Decode (bs : List Nat) : List Char :=
  utf8DecodeF bs.length bs

/-- The byte-order mark code point. -/
def bomChar : Char := Char.ofNat 0xFEFF

/-- Modelled from the spec: `TextDecoder.decode` with default options —
UTF-8 with replacement characters, one leading byte-order mark
removed. -/
def textDecode (bs : List Nat) : List Char :=
  match utf8Decode bs with
  | c :: cs => if c = bomChar then cs else c :: cs
  | [] => []

/-- Decoding the UTF-8 bytes of one character in front of any remainder
yields that character and one fuel step is consumed. -/
theorem utf8DecodeF_encodeChar (c : Char) (tail : List Nat) (fuel : Nat) :
    utf8DecodeF (fuel + 1) (utf8EncodeChar c ++ tail) = c :: utf8DecodeF fuel tail := by
  have hv : c.toNat < 0xD800 ∨ (0xDFFF < c.toNat ∧ c.toNat < 0x110000) := c.valid
  by_cases h1 : c.toNat < 0x80
  · have he : utf8EncodeChar c = [c.toNat] := by simp [utf8EncodeChar, h1]
    rw [he, List.cons_append, List.nil_append]
    simp only [utf8DecodeF, if_pos h1, Char.ofNat_toNat]
  · by_cases h2 : c.toNat < 0x800
    · have he : utf8EncodeChar c = [0xC0 + c.toNat / 64, 0x80 + c.toNat % 64] := by
        simp [utf8EncodeChar, h1, h2]
      rw [he, List.cons_append, List.cons_append, List.nil_append]
      simp only [utf8DecodeF]
      rw [if_neg (by omega), if_pos (by omega)]
      rw [if_pos (by omega)]
      have harith : (0xC0 + c.toNat / 64 - 0xC0) * 64 + (0x80 + c.toNat % 64 - 0x80)
          = c.toNat := by omega
      rw [harith, Char.ofNat_toNat]
    · by_cases h3 : c.toNat < 0x10000
      · have he : utf8EncodeChar c
            = [0xE0 + c.toNat / 4096, 0x80 + c.toNat / 64 % 64, 0x80 + c.toNat % 64] := by
          simp [utf8EncodeChar, h1, h2, h3]
        rw [he, List.cons_append, List.cons_append, List.cons_append, List.nil_append]
        simp only [utf8DecodeF]
        rw [if_neg (by omega), if_neg (by omega), if_pos (by omega)]
        have hcond : (if 0xE0 + c.toNat / 4096 = 0xE0 then 0xA0 else 0x80)
              ≤ 0x80 + c.toNat / 64 % 64
            ∧ 0x80 + c.toNat / 64 % 64
              ≤ (if 0xE0 + c.toNat / 4096 = 0xED then 0x9F else 0xBF) := by
          refine ⟨?_, ?_⟩
          · by_cases hA : 0xE0 + c.toNat / 4096 = 0xE0
            · rw [if_pos hA]; omega
            · rw [if_neg hA]; omega
          · by_cases hB : 0xE0 + c.toNat / 4096 = 0xED
            · rw [if_pos hB]; omega
            · rw [if_neg hB]; omega
        rw [if_pos hcond, if_pos (by omega)]
        have harith : (0xE0 + c.toNat / 4096 - 0xE0) * 4096
            + (0x80 + c.toNat / 64 % 64 - 0x80) * 64 + (0x80 + c.toNat % 64 - 0x80)
            = c.toNat := by omega
        rw [harith, Char.ofNat_toNat]
      · have he : utf8EncodeChar c
            = [0xF0 + c.toNat / 262144, 0x80 + c.toNat / 4096 % 64, 0x80 + c.toNat / 64 % 64,
               0x80 + c.toNat % 64] := by
          simp [utf8EncodeChar, h1, h2, h3]
        rw [he, List.cons_append, List.cons_append, List.cons_append, List.cons_append,
          List.nil_append]
        simp only [utf8DecodeF]
        rw [if_neg (by omega), if_neg (by omega), if_neg (by omega), if_pos (by omega)]
        have hcond : (if 0xF0 + c.toNat / 262144 = 0xF0 then 0x90 else 0x80)
              ≤ 0x80 + c.toNat / 4096 % 64
            ∧ 0x80 + c.toNat / 4096 % 64
              ≤ (if 0xF0 + c.toNat / 262144 = 0xF4 then 0x8F else 0xBF) := by
          refine ⟨?_, ?_⟩
          · by_cases hA : 0xF0 + c.toNat / 262144 = 0xF0
            · rw [if_pos hA]; omega
            · rw [if_neg hA]; omega
          · by_cases hB : 0xF0 + c.toNat / 262144 = 0xF4
            · rw [if_pos hB]; omega
            · rw [if_neg hB]; omega
        rw [if_pos hcond, if_pos (by omega), if_pos (by omega)]
        have harith : (0xF0 + c.toNat / 262144 - 0xF0) * 262144
            + (0x80 + c.toNat / 4096 % 64 - 0x80) * 4096
            + (0x80 + c.toNat / 64 % 64 - 0x80) * 64 + (0x80 + c.toNat % 64 - 0x80)
            = c.toNat := by omega
        rw [harith, Char.ofNat_toNat]

/-- Fuelled decoding walks through an encoded character list, one step per
character, and continues on the remainder. -/
theorem utf8DecodeF_encode (cs : List Char) (tail : List Nat) (fuel : Nat) :
    utf8DecodeF (cs.length + fuel) (utf8Encode cs ++ tail) = cs ++ utf8DecodeF fuel tail := by
  induction cs with
  | nil => simp [utf8Encode_nil]
  | cons c cs ih =>
    rw [utf8Encode_cons, List.append_assoc]
    have hlen : (c :: cs).length + fuel = (cs.length + fuel) + 1 := by simp; omega
    rw [hlen, utf8DecodeF_encodeChar, ih, List.cons_append]

/-- Every character encodes to at least one byte. -/
theorem utf8Encode_length_ge (cs : List Char) : cs.length ≤ (utf8Encode cs).length := by
  induction cs with
  | nil => simp [utf8Encode_nil]
  | cons c cs ih =>
    rw [utf8Encode_cons]
    have hc : 1 ≤ (utf8EncodeChar c).length := by
      simp only [utf8EncodeChar]
      split <;> try simp
      split <;> try simp
      split <;> simp
    simp only [List.length_append, List.length_cons]
    omega

/-- Fuel exhaustion on the empty list is harmless. -/
theorem utf8DecodeF_nil (fuel : Nat) : utf8DecodeF fuel [] = [] := by
  cases fuel <;> rfl

/-- UTF-8 round-trip: decoding an encoded character list gives it back. -/
theorem utf8Decode_encode (cs : List Char) : utf8Decode (utf8Encode cs) = cs := by
  have hge := utf8Encode_length_ge cs
  have hsplit : (utf8Encode cs).length = cs.length + ((utf8Encode cs).length - cs.length) := by
    omega
  rw [utf8Decode, hsplit]
  have := utf8DecodeF_encode cs [] ((utf8Encode cs).length - cs.length)
  rw [List.append_nil] at this
  rw [this, utf8DecodeF_nil, List.append_nil]

/-- Text decoding of an encoding whose first character is not the
byte-order mark. -/
theorem textDecode_encode_cons (c : Char) (t : List Char) (h : ¬ c = bomChar) :
    textDecode (utf8Encode (c :: t)) = c :: t := by
  unfold textDecode
  rw [utf8Decode_encode]
  simp [h]

/-! ## JSON (model of JSON.stringify / JSON.parse)

The JSON values the Seal layer serializes are strings, integers, booleans,
byte arrays and flat objects.  The model below renders exactly like
`JSON.stringify` (no whitespace, insertion-order keys, two-character
escapes for `"` `\` `\b` `\t` `\n` `\f` `\r`, `\u00XX` for the remaining
control characters) and parses with a fuelled recursive-descent reader
following the `JSON.parse` grammar: numbers take an optional minus, an
integer part without redundant leading zeros, and optional fraction and
exponent parts.  The platform parses a number to an IEEE double; here the
value is truncated to an integer (`numValue`), an approximation no theorem
observes — only acceptance and rejection of the text matter beyond the
integer literals the serializer itself emits.  A lone surrogate from a
`\uXXXX` escape becomes U+FFFD, as `JSON.parse` keeps lone surrogates
which the later UTF-8 re-encoding would replace. -/

/-- The double-quote character. -/
def quoteC : Char := Char.ofNat 34

/-- The backslash character. -/
def bslashC : Char := Char.ofNat 92

/-- The opening curly bracket. -/
def lbraceC : Char := Char.ofNat 123

/-- The closing curly bracket. -/
def rbraceC : Char := Char.ofNat 125

/-- Decimal digit character (`d < 10`). -/
def digitChar (d : Nat) : Char := Char.ofNat (48 + d)

/-- Lowercase hexadecimal digit character (`d < 16`), as emitted by
`JSON.stringify` in `\u00XX` escapes. -/
def hexChar (d : Nat) : Char :=
  if d < 10 then Char.ofNat (48 + d) else Char.ofNat (87 + d)

/-- Digit test for the parser. -/
def isDigitC (c : Char) : Bool :=
  if 48 ≤ c.toNat ∧ c.toNat ≤ 57 then true else false

/-- Hexadecimal digit value, any case. -/
def hexVal (c : Char) : Option Nat :=
  if 48 ≤ c.toNat ∧ c.toNat ≤ 57 then some (c.toNat - 48)
  else if 97 ≤ c.toNat ∧ c.toNat ≤ 102 then some (c.toNat - 87)
  else if 65 ≤ c.toNat ∧ c.toNat ≤ 70 then some (c.toNat - 55)
  else none

theorem digitChar_toNat {d : Nat} (h : d < 10) : (digitChar d).toNat = 48 + d :=
  toNat_ofNat_valid (Or.inl (by omega))

theorem isDigitC_digitChar {d : Nat} (h : d < 10) : isDigitC (digitChar d) = true := by
  simp [isDigitC, digitChar_toNat h]
  omega

theorem hexVal_hexChar {d : Nat} (h : d < 16) : hexVal (hexChar d) = some d := by
  by_cases h10 : d < 10
  · have ht : (hexChar d).toNat = 48 + d := by
      simp only [hexChar, if_pos h10]
      exact toNat_ofNat_valid (Or.inl (by omega))
    simp [hexVal, ht]
    omega
  · have ht : (hexChar d).toNat = 87 + d := by
      simp only [hexChar, if_neg h10]
      exact toNat_ofNat_valid (Or.inl (by omega))
    rw [hexVal, if_neg (by omega), if_pos (by omega)]
    simp
    omega

/-- Fuelled most-significant-first decimal digits. -/
def natDigitsF : Nat → Nat → List Char
  | 0, _ => []
  | fuel + 1, n =>
    if n < 10 then [digitChar n] else natDigitsF fuel (n / 10) ++ [digitChar (n % 10)]

/-- Decimal digit characters of `n`, most significant first. -/
def natDigits (n : Nat) : List Char := natDigitsF (n + 1) n

/-- The fuel argument is irrelevant once it exceeds the number. -/
theorem natDigitsF_stable : ∀ n f g, n < f → n < g → natDigitsF f n = natDigitsF g n := by
  intro n
  induction n using Nat.strongRecOn with
  | _ n ih =>
    intro f g hf hg
    match f, hf with
    | f + 1, _ =>
      match g, hg with
      | g + 1, _ =>
        simp only [natDigitsF]
        by_cases h10 : n < 10
        · simp [h10]
        · rw [if_neg h10, if_neg h10,
            ih (n / 10) (by omega) f g (by omega) (by omega)]

/-- Unfolding rule for `natDigits` in last-digit form. -/
theorem natDigits_eq (n : Nat) :
    natDigits n = if n < 10 then [digitChar n]
      else natDigits (n / 10) ++ [digitChar (n % 10)] := by
  show natDigitsF (n + 1) n = _
  rw [natDigitsF]
  by_cases h10 : n < 10
  · simp [h10]
  · rw [if_neg h10, if_neg h10, natDigitsF_stable (n / 10) n (n / 10 + 1) (by omega) (by omega)]
    rfl

theorem natDigits_all_digits (n : Nat) : ∀ c ∈ natDigits n, isDigitC c = true := by
  induction n using Nat.strongRecOn with
  | _ n ih =>
    rw [natDigits_eq]
    by_cases h10 : n < 10
    · simp only [if_pos h10, List.mem_singleton]
      rintro c rfl
      exact isDigitC_digitChar h10
    · simp only [if_neg h10, List.mem_append, List.mem_singleton]
      rintro c (hc | rfl)
      · exact ih (n / 10) (by omega) c hc
      · exact isDigitC_digitChar (by omega)

theorem natDigits_ne_nil (n : Nat) : natDigits n ≠ [] := by
  rw [natDigits_eq]
  by_cases h10 : n < 10 <;> simp [h10]

/-- The numeric value read back from a digit run. -/
def digitsVal (ds : List Char) : Nat :=
  ds.foldl (fun a c => 10 * a + (c.toNat - 48)) 0

theorem digitsVal_natDigits (n : Nat) : digitsVal (natDigits n) = n := by
  suffices h : ∀ m, ∀ a, (natDigits m).foldl (fun a c => 10 * a + (c.toNat - 48)) a
      = a * 10 ^ (natDigits m).length + m by
    have := h n 0
    simpa [digitsVal] using this
  intro m
  induction m using Nat.strongRecOn with
  | _ m ih =>
    intro a
    rw [natDigits_eq]
    by_cases h10 : m < 10
    · simp only [if_pos h10, List.foldl_cons, List.foldl_nil, List.length_singleton,
        digitChar_toNat h10, pow_one]
      omega
    · simp only [if_neg h10, List.foldl_append, List.length_append, List.foldl_cons,
        List.foldl_nil, List.length_singleton]
      rw [ih (m / 10) (by omega) a, digitChar_toNat (by omega)]
      have : 10 ^ ((natDigits (m / 10)).length + 1)
          = 10 ^ (natDigits (m / 10)).length * 10 := by ring
      rw [this]
      have hm : 10 * (a * 10 ^ (natDigits (m / 10)).length + m / 10) + (48 + m % 10 - 48)
          = a * (10 ^ (natDigits (m / 10)).length * 10) + (10 * (m / 10) + m % 10) := by ring_nf; omega
      rw [hm]
      omega

/-- Decimal characters of an integer: optional minus sign, then digits. -/
def intChars (i : Int) : List Char :=
  if i < 0 then '-' :: natDigits i.natAbs else natDigits i.natAbs

/-- Modelled from the spec: one character, JSON-escaped as `JSON.stringify`
escapes it. -/
def escapeChar (c : Char) : List Char :=
  if c = quoteC then [bslashC, quoteC]
  else if c = bslashC then [bslashC, bslashC]
  else if c = Char.ofNat 8 then [bslashC, 'b']
  else if c = Char.ofNat 9 then [bslashC, 't']
  else if c = Char.ofNat 10 then [bslashC, 'n']
  else if c = Char.ofNat 12 then [bslashC, 'f']
  else if c = Char.ofNat 13 then [bslashC, 'r']
  else if c.toNat < 0x20 then
    [bslashC, 'u', '0', '0', hexChar (c.toNat / 16), hexChar (c.toNat % 16)]
  else [c]

/-- The escaped body of a JSON string literal. -/
def escBody (cs : List Char) : List Char :=
  cs.foldr (fun c acc => escapeChar c ++ acc) []

theorem escBody_nil : escBody [] = [] := rfl

theorem escBody_cons (c : Char) (cs : List Char) :
    escBody (c :: cs) = escapeChar c ++ escBody cs := rfl

/-- A JSON string literal: quote, escaped body, quote. -/
def strLit (s : String) : List Char := quoteC :: (escBody s.data ++ [quoteC])

/-- Modelled from the spec: the JSON values exchanged through the envelope
header.  Numbers are integers (all numbers the Seal layer writes are). -/
inductive Json where
  | null
  | bool (b : Bool)
  | num (n : Int)
  | str (s : String)
  | arr (elems : List Json)
  | obj (fields : List (String × Json))

mutual
/-- Modelled from the spec: `JSON.stringify` output characters (no
whitespace, insertion-order object keys). -/
def jsonChars : Json → List Char
  | .num n => intChars n
  | .str s => strLit s
  | .arr es => '[' :: (jArrChars es ++ [']'])
  | .obj fs => lbraceC :: (jObjChars fs ++ [rbraceC])
  | .bool false => ['f', 'a', 'l', 's', 'e']
  | .bool true => ['t', 'r', 'u', 'e']
  | .null => ['n', 'u', 'l', 'l']

/-- Array elements, comma-separated. -/
def jArrChars : List Json → List Char
  | [] => []
  | e :: es => jsonChars e ++ jArrSep es

/-- Continuation of an array after its first element. -/
def jArrSep : List Json → List Char
  | [] => []
  | e :: es => ',' :: (jsonChars e ++ jArrSep es)

/-- Object members, comma-separated `"key":value` pairs. -/
def jObjChars : List (String × Json) → List Char
  | [] => []
  | (k, v) :: fs => strLit k ++ (':' :: (jsonChars v ++ jObjSep fs))

/-- Continuation of an object after its first member. -/
def jObjSep : List (String × Json) → List Char
  | [] => []
  | (k, v) :: fs => ',' :: (strLit k ++ (':' :: (jsonChars v ++ jObjSep fs)))
end

/-- Modelled from the spec: `JSON.stringify` as a string. -/
def jsonStringify (j : Json) : String := String.mk (jsonChars j)

/-! ### The JSON reader (model of JSON.parse) -/

/-- Skip JSON whitespace. -/
def pSkipWs : List Char → List Char
  | c :: r =>
    if c.toNat = 32 ∨ c.toNat = 9 ∨ c.toNat = 10 ∨ c.toNat = 13 then pSkipWs r else c :: r
  | [] => []

/-- Take a maximal run of decimal digits. -/
def pDigits : List Char → List Char × List Char
  | c :: r =>
    if isDigitC c then
      let p := pDigits r
      (c :: p.1, p.2)
    else ([], c :: r)
  | [] => ([], [])

/-- The fraction part of a number literal: a dot must be followed by one
or more digits (`JSON.parse` rejects a bare trailing dot); without a dot
nothing is consumed. -/
def pFrac : List Char → Option (List Char × List Char)
  | c :: r =>
    if c = '.' then
      match pDigits r with
      | ([], _) => none
      | (d :: ds, r2) => some (d :: ds, r2)
    else some ([], c :: r)
  | [] => some ([], [])

/-- The exponent part of a number literal: `e`/`E`, an optional sign and
one or more digits; without a marker nothing is consumed. -/
def pExp : List Char → Option (Int × List Char)
  | c :: r =>
    if c = 'e' ∨ c = 'E' then
      match r with
      | c2 :: r2 =>
        if c2 = '-' then
          match pDigits r2 with
          | ([], _) => none
          | (d :: ds, r3) => some (-(digitsVal (d :: ds) : Int), r3)
        else if c2 = '+' then
          match pDigits r2 with
          | ([], _) => none
          | (d :: ds, r3) => some ((digitsVal (d :: ds) : Int), r3)
        else
          match pDigits (c2 :: r2) with
          | ([], _) => none
          | (d :: ds, r3) => some ((digitsVal (d :: ds) : Int), r3)
      | [] => none
    else some (0, c :: r)
  | [] => some (0, [])

/-- The magnitude of the literal `ids.fds × 10^e`, truncated to an
integer.  `JSON.parse` yields an IEEE double; no theorem of this file
observes the value of a literal carrying a fraction or exponent — only
that the text is accepted — so this truncation stands in for the
double. -/
def numValue (ids fds : List Char) (e : Int) : Nat :=
  if 0 ≤ e - fds.length then digitsVal (ids ++ fds) * 10 ^ (e - fds.length).toNat
  else digitsVal (ids ++ fds) / 10 ^ (fds.length - e).toNat

/-- An unsigned number literal: integer digits without a redundant
leading zero, then the optional fraction and exponent parts. -/
def pNumMag (cs : List Char) : Option (Nat × List Char) :=
  match pDigits cs with
  | ([], _) => none
  | (d :: ds, r2) =>
    if d = '0' ∧ ds ≠ [] then none
    else
      match pFrac r2 with
      | none => none
      | some (fds, r3) =>
        match pExp r3 with
        | none => none
        | some (e, r4) => some (numValue (d :: ds) fds e, r4)

/-- Modelled from the spec: `JSON.parse` number parsing — optional minus,
no leading zeros, optional fraction and exponent (value truncation as in
`numValue`). -/
def pNumber (cs : List Char) : Option (Int × List Char) :=
  match cs with
  | c :: r =>
    if c = '-' then (pNumMag r).map (fun p => (-(p.1 : Int), p.2))
    else (pNumMag (c :: r)).map (fun p => ((p.1 : Int), p.2))
  | [] => none

/-- Two-character escapes accepted after a backslash. -/
def unescapeChar (c : Char) : Option Char :=
  if c = quoteC then some quoteC
  else if c = bslashC then some bslashC
  else if c = '/' then some '/'
  else if c = 'b' then some (Char.ofNat 8)
  else if c = 't' then some (Char.ofNat 9)
  else if c = 'n' then some (Char.ofNat 10)
  else if c = 'f' then some (Char.ofNat 12)
  else if c = 'r' then some (Char.ofNat 13)
  else none

/-- Modelled from the spec: fuelled reader for the body of a string
literal, after the opening quote.  Handles the two-character escapes,
`\uXXXX` (pairing surrogates; a lone surrogate becomes U+FFFD), rejects
raw control characters, and stops at the closing quote. -/
def pStrBody : Nat → List Char → Option (List Char × List Char)
  | 0, _ => none
  | _ + 1, [] => none
  | fuel + 1, c :: rest =>
    if c = quoteC then some ([], rest)
    else if c = bslashC then
      match rest with
      | [] => none
      | e :: rest2 =>
        if e = 'u' then
          match rest2 with
          | a :: b :: c2 :: d :: rest3 =>
            match hexVal a, hexVal b, hexVal c2, hexVal d with
            | some va, some vb, some vc, some vd =>
              let v := ((va * 16 + vb) * 16 + vc) * 16 + vd
              if v < 0xD800 ∨ 0xDFFF < v then
                (pStrBody fuel rest3).map (fun p => (Char.ofNat v :: p.1, p.2))
              else if v ≤ 0xDBFF then
                match rest3 with
                | e2 :: u2 :: a2 :: b2 :: c3 :: d2 :: rest4 =>
                  if e2 = bslashC ∧ u2 = 'u' then
                    match hexVal a2, hexVal b2, hexVal c3, hexVal d2 with
                    | some wa, some wb, some wc, some wd =>
                      let w := ((wa * 16 + wb) * 16 + wc) * 16 + wd
                      if 0xDC00 ≤ w ∧ w ≤ 0xDFFF then
                        (pStrBody fuel rest4).map (fun p =>
                          (Char.ofNat (0x10000 + (v - 0xD800) * 1024 + (w - 0xDC00)) :: p.1, p.2))
                      else (pStrBody fuel rest3).map (fun p => (repChar :: p.1, p.2))
                    | _, _, _, _ => (pStrBody fuel rest3).map (fun p => (repChar :: p.1, p.2))
                  else (pStrBody fuel rest3).map (fun p => (repChar :: p.1, p.2))
                | _ => (pStrBody fuel rest3).map (fun p => (repChar :: p.1, p.2))
              else (pStrBody fuel rest3).map (fun p => (repChar :: p.1, p.2))
            | _, _, _, _ => none
          | _ => none
        else
          match unescapeChar e with
          | some ch => (pStrBody fuel rest2).map (fun p => (ch :: p.1, p.2))
          | none => none
    else if c.toNat < 0x20 then none
    else (pStrBody fuel rest).map (fun p => (c :: p.1, p.2))

mutual
/-- Modelled from the spec: fuelled JSON value reader (`JSON.parse`). -/
def pValue : Nat → List Char → Option (Json × List Char)
  | 0, _ => none
  | fuel + 1, cs =>
    match pSkipWs cs with
    | 'n' :: 'u' :: 'l' :: 'l' :: r => some (.null, r)
    | 't' :: 'r' :: 'u' :: 'e' :: r => some (.bool true, r)
    | 'f' :: 'a' :: 'l' :: 's' :: 'e' :: r => some (.bool false, r)
    | c :: r =>
      if c = quoteC then
        (pStrBody (r.length + 1) r).map (fun p => (.str (String.mk p.1), p.2))
      else if c = '[' then
        match pSkipWs r with
        | c2 :: r2 =>
          if c2 = ']' then some (.arr [], r2)
          else (pElems fuel (c2 :: r2)).map (fun p => (.arr p.1, p.2))
        | [] => none
      else if c = lbraceC then
        match pSkipWs r with
        | c2 :: r2 =>
          if c2 = rbraceC then some (.obj [], r2)
          else (pFields fuel (c2 :: r2)).map (fun p => (.obj p.1, p.2))
        | [] => none
      else if c = '-' ∨ isDigitC c then
        (pNumber (c :: r)).map (fun p => (.num p.1, p.2))
      else none
    | [] => none

/-- One or more comma-separated array elements followed by `]`. -/
def pElems : Nat → List Char → Option (List Json × List Char)
  | 0, _ => none
  | fuel + 1, cs =>
    match pValue fuel cs with
    | some (v, r) =>
      match pSkipWs r with
      | ',' :: r2 => (pElems fuel r2).map (fun p => (v :: p.1, p.2))
      | c2 :: r2 => if c2 = ']' then some ([v], r2) else none
      | [] => none
    | none => none

/-- One or more comma-separated object members followed by the closing
curly bracket. -/
def pFields : Nat → List Char → Option (List (String × Json) × List Char)
  | 0, _ => none
  | fuel + 1, cs =>
    match pSkipWs cs with
    | c :: r =>
      if c = quoteC then
        match pStrBody (r.length + 1) r with
        | some (key, r1) =>
          match pSkipWs r1 with
          | ':' :: r2 =>
            match pValue fuel r2 with
            | some (v, r3) =>
              match pSkipWs r3 with
              | ',' :: r4 => (pFields fuel r4).map (fun p => ((String.mk key, v) :: p.1, p.2))
              | c4 :: r4 => if c4 = rbraceC then some ([(String.mk key, v)], r4) else none
              | [] => none
            | none => none
          | _ => none
        | none => none
      else none
    | [] => none
end

/-- Modelled from the spec: `JSON.parse` over a character list. -/
def jsonParse (cs : List Char) : Option Json :=
  match pValue (cs.length + 1) cs with
  | some (j, r) => if pSkipWs r = [] then some j else none
  | none => none

/-! ### Round-trip lemmas: the reader inverts the writer -/

/-- A list whose head cannot start or continue a digit run. -/
def digitBreak : List Char → Bool
  | [] => true
  | c :: _ => !(isDigitC c)

/-- A list whose head cannot extend a rendered number literal. -/
def numBreak : List Char → Bool
  | [] => true
  | c :: _ => !(isDigitC c || c == '.' || c == 'e' || c == 'E')

theorem numBreak_digitBreak {cs : List Char} (h : numBreak cs = true) : digitBreak cs = true := by
  cases cs with
  | nil => rfl
  | cons c t =>
    simp only [numBreak, Bool.not_eq_true', Bool.or_eq_false_iff] at h
    simp [digitBreak, h.1.1.1]

/-- A break character opens no fraction part. -/
theorem pFrac_stop {cs : List Char} (h : numBreak cs = true) : pFrac cs = some ([], cs) := by
  cases cs with
  | nil => rfl
  | cons c t =>
    simp only [numBreak, Bool.not_eq_true', Bool.or_eq_false_iff, beq_eq_false_iff_ne] at h
    simp only [pFrac]
    rw [if_neg h.1.1.2]

/-- A break character opens no exponent part. -/
theorem pExp_stop {cs : List Char} (h : numBreak cs = true) : pExp cs = some (0, cs) := by
  cases cs with
  | nil => rfl
  | cons c t =>
    simp only [numBreak, Bool.not_eq_true', Bool.or_eq_false_iff, beq_eq_false_iff_ne] at h
    simp only [pExp]
    rw [if_neg (fun hc => hc.elim h.1.2 h.2)]

theorem pDigits_stop {cs : List Char} (h : digitBreak cs = true) : pDigits cs = ([], cs) := by
  cases cs with
  | nil => rfl
  | cons c t =>
    simp only [digitBreak, Bool.not_eq_true'] at h
    simp [pDigits, h]

/-- `pDigits` consumes exactly a leading digit run. -/
theorem pDigits_run (ds : List Char) (hds : ∀ c ∈ ds, isDigitC c = true)
    (rest : List Char) (hrest : digitBreak rest = true) :
    pDigits (ds ++ rest) = (ds, rest) := by
  induction ds with
  | nil => simpa using pDigits_stop hrest
  | cons c t ih =>
    have hc : isDigitC c = true := hds c (by simp)
    have ht := ih (fun x hx => hds x (by simp [hx]))
    simp [pDigits, hc, ht]

theorem digit_toNat_lt {c : Char} (h : isDigitC c = true) : 48 ≤ c.toNat ∧ c.toNat ≤ 57 := by
  simp only [isDigitC] at h
  split at h
  · assumption
  · exact absurd h (by simp)

/-- The rendered digits of a number never start with a redundant zero. -/
theorem natDigits_head_zero : ∀ m, ∀ ds : List Char, natDigits m = '0' :: ds → ds = [] := by
  intro m
  induction m using Nat.strongRecOn with
  | _ m ih =>
    intro ds h
    rw [natDigits_eq] at h
    by_cases h10 : m < 10
    · rw [if_pos h10] at h
      exact ((List.cons.inj h).2).symm
    · rw [if_neg h10] at h
      obtain ⟨c, t, hnd⟩ : ∃ c t, natDigits (m / 10) = c :: t := by
        match hnd : natDigits (m / 10) with
        | [] => exact absurd hnd (natDigits_ne_nil _)
        | c :: t => exact ⟨c, t, rfl⟩
      rw [hnd, List.cons_append] at h
      have hc : c = '0' := (List.cons.inj h).1
      have ht : t = [] := ih (m / 10) (by omega) t (by rw [← hc]; exact hnd)
      have hv := digitsVal_natDigits (m / 10)
      rw [hnd, hc, ht] at hv
      have h0 : digitsVal ['0'] = 0 := by decide
      rw [h0] at hv
      omega

/-- Reading back a rendered magnitude, provided the remainder cannot
extend the literal. -/
theorem pNumMag_natDigits (m : Nat) (rest : List Char) (h : numBreak rest = true) :
    pNumMag (natDigits m ++ rest) = some (m, rest) := by
  obtain ⟨c, t, hnd, hc⟩ : ∃ c t, natDigits m = c :: t ∧ isDigitC c = true := by
    match hnd : natDigits m with
    | [] => exact absurd hnd (natDigits_ne_nil _)
    | c :: t =>
      refine ⟨c, t, rfl, natDigits_all_digits m c ?_⟩
      rw [hnd]
      exact List.mem_cons_self c t
  have hrun : pDigits (natDigits m ++ rest) = (natDigits m, rest) :=
    pDigits_run _ (natDigits_all_digits _) _ (numBreak_digitBreak h)
  have hlz : ¬ (c = '0' ∧ t ≠ []) := by
    rintro ⟨h0, hne⟩
    exact hne (natDigits_head_zero m t (by rw [← h0]; exact hnd))
  rw [hnd] at hrun
  simp only [pNumMag, hnd, hrun]
  rw [if_neg hlz]
  simp only [pFrac_stop h, pExp_stop h]
  have hv : numValue (c :: t) [] 0 = m := by
    have hnv : numValue (c :: t) [] 0 = digitsVal (c :: t) := by
      simp [numValue]
    rw [hnv, ← hnd, digitsVal_natDigits]
  rw [hv]

/-- Reading back a rendered integer, provided the remainder cannot extend
it. -/
theorem pNumber_intChars (n : Int) (rest : List Char) (h : numBreak rest = true) :
    pNumber (intChars n ++ rest) = some (n, rest) := by
  by_cases hneg : n < 0
  · have harg : intChars n ++ rest = '-' :: (natDigits n.natAbs ++ rest) := by
      simp [intChars, hneg]
    rw [harg]
    simp only [pNumber, if_true]
    rw [pNumMag_natDigits n.natAbs rest h]
    simp only [Option.map_some', Option.some.injEq, Prod.mk.injEq]
    exact ⟨by omega, trivial⟩
  · obtain ⟨c, t, hnd, hc⟩ : ∃ c t, natDigits n.natAbs = c :: t ∧ isDigitC c = true := by
      match hnd : natDigits n.natAbs with
      | [] => exact absurd hnd (natDigits_ne_nil _)
      | c :: t =>
        refine ⟨c, t, rfl, natDigits_all_digits n.natAbs c ?_⟩
        rw [hnd]
        exact List.mem_cons_self c t
    have hcm : ¬ c = '-' := by
      intro hcontra
      have hd := digit_toNat_lt hc
      rw [hcontra] at hd
      exact absurd hd (by decide)
    have harg : intChars n ++ rest = c :: (t ++ rest) := by
      simp [intChars, hneg, hnd]
    rw [harg]
    simp only [pNumber]
    rw [if_neg hcm, ← List.cons_append, ← hnd, pNumMag_natDigits n.natAbs rest h]
    simp only [Option.map_some', Option.some.injEq, Prod.mk.injEq]
    exact ⟨by omega, trivial⟩

/-- Each character escapes to at least one character. -/
theorem escapeChar_ne_nil (c : Char) : escapeChar c ≠ [] := by
  simp only [escapeChar]
  iterate 7 (split <;> try simp)
  split <;> simp

theorem escBody_length_ge (cs : List Char) : cs.length ≤ (escBody cs).length := by
  induction cs with
  | nil => simp [escBody_nil]
  | cons c cs ih =>
    rw [escBody_cons]
    have h1 : 1 ≤ (escapeChar c).length := by
      cases hc : escapeChar c with
      | nil => exact absurd hc (escapeChar_ne_nil c)
      | cons a l => simp
    simp only [List.length_append, List.length_cons]
    omega

/-- One fuelled step of the string reader across a two-character escape. -/
theorem pStrBody_twoChar (f : Nat) (e ch : Char) (tail : List Char)
    (hu : unescapeChar e = some ch) (hne : ¬ e = 'u') :
    pStrBody (f + 1) (bslashC :: e :: tail)
      = (pStrBody f tail).map (fun p => (ch :: p.1, p.2)) := by
  simp only [pStrBody]
  rw [if_neg (by decide), if_pos trivial, if_neg hne, hu]

/-- Reading back an escaped string body: one fuel step per source
character plus one for the closing quote. -/
theorem pStrBody_escBody : ∀ (cs : List Char) (fuel : Nat) (rest : List Char),
    cs.length + 1 ≤ fuel →
    pStrBody fuel (escBody cs ++ (quoteC :: rest)) = some (cs, rest) := by
  intro cs
  induction cs with
  | nil =>
    intro fuel rest hf
    match fuel, hf with
    | f + 1, _ =>
      rw [escBody_nil, List.nil_append]
      simp [pStrBody]
  | cons c cs ih =>
    intro fuel rest hf
    match fuel, hf with
    | f + 1, hff =>
      have hfc : cs.length + 1 ≤ f := by
        simp only [List.length_cons] at hff
        omega
      have ihc := ih f rest hfc
      rw [escBody_cons, List.append_assoc]
      by_cases h1 : c = quoteC
      · subst h1
        rw [show escapeChar quoteC = [bslashC, quoteC] from by decide,
          List.cons_append, List.cons_append, List.nil_append,
          pStrBody_twoChar f quoteC quoteC _ (by decide) (by decide), ihc]
        rfl
      · by_cases h2 : c = bslashC
        · subst h2
          rw [show escapeChar bslashC = [bslashC, bslashC] from by decide,
            List.cons_append, List.cons_append, List.nil_append,
            pStrBody_twoChar f bslashC bslashC _ (by decide) (by decide), ihc]
          rfl
        · by_cases h3 : c = Char.ofNat 8
          · subst h3
            rw [show escapeChar (Char.ofNat 8) = [bslashC, 'b'] from by decide,
              List.cons_append, List.cons_append, List.nil_append,
              pStrBody_twoChar f 'b' (Char.ofNat 8) _ (by decide) (by decide), ihc]
            rfl
          · by_cases h4 : c = Char.ofNat 9
            · subst h4
              rw [show escapeChar (Char.ofNat 9) = [bslashC, 't'] from by decide,
                List.cons_append, List.cons_append, List.nil_append,
                pStrBody_twoChar f 't' (Char.ofNat 9) _ (by decide) (by decide), ihc]
              rfl
            · by_cases h5 : c = Char.ofNat 10
              · subst h5
                rw [show escapeChar (Char.ofNat 10) = [bslashC, 'n'] from by decide,
                  List.cons_append, List.cons_append, List.nil_append,
                  pStrBody_twoChar f 'n' (Char.ofNat 10) _ (by decide) (by decide), ihc]
                rfl
              · by_cases h6 : c = Char.ofNat 12
                · subst h6
                  rw [show escapeChar (Char.ofNat 12) = [bslashC, 'f'] from by decide,
                    List.cons_append, List.cons_append, List.nil_append,
                    pStrBody_twoChar f 'f' (Char.ofNat 12) _ (by decide) (by decide), ihc]
                  rfl
                · by_cases h7 : c = Char.ofNat 13
                  · subst h7
                    rw [show escapeChar (Char.ofNat 13) = [bslashC, 'r'] from by decide,
                      List.cons_append, List.cons_append, List.nil_append,
                      pStrBody_twoChar f 'r' (Char.ofNat 13) _ (by decide) (by decide), ihc]
                    rfl
                  · by_cases h8 : c.toNat < 0x20
                    · -- remaining control characters escape as backslash-u00XX
                      have he : escapeChar c
                          = [bslashC, 'u', '0', '0', hexChar (c.toNat / 16),
                             hexChar (c.toNat % 16)] := by
                        rw [escapeChar, if_neg h1, if_neg h2, if_neg h3, if_neg h4, if_neg h5,
                          if_neg h6, if_neg h7, if_pos h8]
                      rw [he]
                      simp only [List.cons_append, List.nil_append]
                      simp only [pStrBody]
                      rw [if_neg (by decide), if_pos trivial, if_pos trivial]
                      have hv0 : hexVal '0' = some 0 := by decide
                      simp only [hv0, hexVal_hexChar (show c.toNat / 16 < 16 by omega),
                        hexVal_hexChar (show c.toNat % 16 < 16 by omega)]
                      rw [if_pos (by omega)]
                      rw [ihc]
                      have hch : Char.ofNat (((0 * 16 + 0) * 16 + c.toNat / 16) * 16
                          + c.toNat % 16) = c := by
                        rw [show ((0 * 16 + 0) * 16 + c.toNat / 16) * 16 + c.toNat % 16
                          = c.toNat from by omega, Char.ofNat_toNat]
                      rw [hch]
                      rfl
                    · have he : escapeChar c = [c] := by
                        rw [escapeChar, if_neg h1, if_neg h2, if_neg h3, if_neg h4, if_neg h5,
                          if_neg h6, if_neg h7, if_neg h8]
                      rw [he, List.cons_append, List.nil_append]
                      simp only [pStrBody]
                      rw [if_neg h1, if_neg h2, if_neg h8, ihc]
                      rfl

/-- Character inequality from distinct scalar values. -/
theorem char_ne_of_toNat {a b : Char} (h : a.toNat ≠ b.toNat) : a ≠ b :=
  fun hc => h (hc ▸ rfl)

/-- Rebuilding a string from its character data is the identity. -/
theorem string_mk_data : ∀ s : String, String.mk s.data = s
  | ⟨_⟩ => rfl

/-- The whitespace test used by `pSkipWs`. -/
def isWsC (c : Char) : Prop :=
  c.toNat = 32 ∨ c.toNat = 9 ∨ c.toNat = 10 ∨ c.toNat = 13

instance (c : Char) : Decidable (isWsC c) := by
  unfold isWsC
  infer_instance

theorem pSkipWs_cons {c : Char} (t : List Char) (h : ¬ isWsC c) :
    pSkipWs (c :: t) = c :: t := by
  simp only [pSkipWs]
  rw [if_neg (by unfold isWsC at h; exact h)]

/-- Every rendered JSON value starts with a character that is not
whitespace, does not close an array or an object, and is not a comma. -/
theorem jsonChars_head (j : Json) :
    ∃ c t, jsonChars j = c :: t ∧ ¬ isWsC c ∧ ¬ c = ']' ∧ ¬ c = rbraceC := by
  cases j with
  | null =>
    refine ⟨'n', _, rfl, ?_, ?_, ?_⟩ <;> decide
  | bool b =>
    cases b
    · refine ⟨'f', _, rfl, ?_, ?_, ?_⟩ <;> decide
    · refine ⟨'t', _, rfl, ?_, ?_, ?_⟩ <;> decide
  | str s =>
    refine ⟨quoteC, _, rfl, ?_, ?_, ?_⟩ <;> decide
  | arr es =>
    refine ⟨'[', _, rfl, ?_, ?_, ?_⟩ <;> decide
  | obj fs =>
    refine ⟨lbraceC, _, rfl, ?_, ?_, ?_⟩ <;> decide
  | num n =>
    by_cases hneg : n < 0
    · refine ⟨'-', natDigits n.natAbs, ?_, by decide, by decide, by decide⟩
      simp [jsonChars, intChars, hneg]
    · obtain ⟨c, t, hnd, hc⟩ : ∃ c t, natDigits n.natAbs = c :: t ∧ isDigitC c = true := by
        match hnd : natDigits n.natAbs with
        | [] => exact absurd hnd (natDigits_ne_nil _)
        | c :: t =>
          refine ⟨c, t, rfl, natDigits_all_digits n.natAbs c ?_⟩
          rw [hnd]
          exact List.mem_cons_self c t
      have hd := digit_toNat_lt hc
      refine ⟨c, t, ?_, ?_, ?_, ?_⟩
      · simp [jsonChars, intChars, hneg, hnd]
      · unfold isWsC
        omega
      · exact char_ne_of_toNat (by rw [show (']').toNat = 93 from by decide]; omega)
      · exact char_ne_of_toNat (by rw [show rbraceC.toNat = 125 from by decide]; omega)

/-- A rendered value is never empty. -/
theorem jsonChars_ne_nil (j : Json) : jsonChars j ≠ [] := by
  obtain ⟨c, t, hct, -⟩ := jsonChars_head j
  rw [hct]
  simp

/-- Skipping whitespace in front of a rendered value does nothing. -/
theorem pSkipWs_jsonChars (j : Json) (x : List Char) :
    pSkipWs (jsonChars j ++ x) = jsonChars j ++ x := by
  obtain ⟨c, t, hct, hws, -, -⟩ := jsonChars_head j
  rw [hct, List.cons_append, pSkipWs_cons _ hws]

end ZkStorage

namespace ZkStorage

theorem pValue_null (f : Nat) (rest : List Char) :
    pValue (f + 1) (jsonChars .null ++ rest) = some (.null, rest) := rfl

theorem pValue_str (f : Nat) (s : String) (rest : List Char) :
    pValue (f + 1) (jsonChars (.str s) ++ rest) = some (.str s, rest) := by
  have harg : jsonChars (.str s) ++ rest = quoteC :: (escBody s.data ++ (quoteC :: rest)) := by
    simp [jsonChars, strLit]
  have hstep : pValue (f + 1) (quoteC :: (escBody s.data ++ (quoteC :: rest)))
      = (pStrBody ((escBody s.data ++ (quoteC :: rest)).length + 1)
          (escBody s.data ++ (quoteC :: rest))).map
          (fun p => (Json.str (String.mk p.1), p.2)) := rfl
  rw [harg, hstep, pStrBody_escBody s.data _ rest (by
    have h1 := escBody_length_ge s.data
    simp only [List.length_append, List.length_cons]
    omega)]
  simp [string_mk_data]

theorem pValue_into_number (f : Nat) (c : Char) (r : List Char)
    (hws : ¬ isWsC c) (hn : ¬ c = 'n') (ht : ¬ c = 't') (hf : ¬ c = 'f')
    (hq : ¬ c = quoteC) (hlb : ¬ c = '[') (hlc : ¬ c = lbraceC)
    (hg : c = '-' ∨ isDigitC c) :
    pValue (f + 1) (c :: r) = (pNumber (c :: r)).map (fun p => (Json.num p.1, p.2)) := by
  simp only [pValue]
  rw [pSkipWs_cons _ hws]
  simp [hn, ht, hf, hq, hlb, hlc, hg]

theorem pValue_arr_cons (f : Nat) (e : Json) (es : List Json) (rest : List Char) :
    pValue (f + 1) (jsonChars (.arr (e :: es)) ++ rest)
      = (pElems f (jArrChars (e :: es) ++ (']' :: rest))).map
          (fun p => (Json.arr p.1, p.2)) := by
  have harg : jsonChars (.arr (e :: es)) ++ rest
      = '[' :: (jArrChars (e :: es) ++ (']' :: rest)) := by
    simp [jsonChars]
  have hstep : pValue (f + 1) ('[' :: (jArrChars (e :: es) ++ (']' :: rest)))
      = (match pSkipWs (jArrChars (e :: es) ++ (']' :: rest)) with
         | c2 :: r2 =>
           if c2 = ']' then some (Json.arr [], r2)
           else (pElems f (c2 :: r2)).map (fun p => (Json.arr p.1, p.2))
         | [] => none) := rfl
  obtain ⟨c2, t2, hct, hws, hbr, -⟩ := jsonChars_head e
  have hcons : jArrChars (e :: es) ++ (']' :: rest)
      = c2 :: (t2 ++ (jArrSep es ++ (']' :: rest))) := by
    simp [jArrChars, hct]
  rw [harg, hstep, hcons, pSkipWs_cons _ hws]
  simp only [if_neg hbr]

theorem pValue_obj_cons (f : Nat) (k : String) (v : Json) (fs : List (String × Json))
    (rest : List Char) :
    pValue (f + 1) (jsonChars (.obj ((k, v) :: fs)) ++ rest)
      = (pFields f (jObjChars ((k, v) :: fs) ++ (rbraceC :: rest))).map
          (fun p => (Json.obj p.1, p.2)) := by
  have harg : jsonChars (.obj ((k, v) :: fs)) ++ rest
      = lbraceC :: (jObjChars ((k, v) :: fs) ++ (rbraceC :: rest)) := by
    simp [jsonChars]
  have hstep : pValue (f + 1) (lbraceC :: (jObjChars ((k, v) :: fs) ++ (rbraceC :: rest)))
      = (match pSkipWs (jObjChars ((k, v) :: fs) ++ (rbraceC :: rest)) with
         | c2 :: r2 =>
           if c2 = rbraceC then some (Json.obj [], r2)
           else (pFields f (c2 :: r2)).map (fun p => (Json.obj p.1, p.2))
         | [] => none) := rfl
  have hcons : jObjChars ((k, v) :: fs) ++ (rbraceC :: rest)
      = quoteC :: (escBody k.data
          ++ (quoteC :: (':' :: (jsonChars v ++ (jObjSep fs ++ (rbraceC :: rest)))))) := by
    simp [jObjChars, strLit]
  rw [harg, hstep, hcons, pSkipWs_cons _ (by decide)]
  simp only [if_neg (show ¬ quoteC = rbraceC by decide)]

end ZkStorage

namespace ZkStorage

theorem pValue_num (f : Nat) (n : Int) (rest : List Char) (hr : numBreak rest = true) :
    pValue (f + 1) (jsonChars (.num n) ++ rest) = some (.num n, rest) := by
  have hj : jsonChars (.num n) = intChars n := rfl
  by_cases hneg : n < 0
  · have harg : jsonChars (.num n) ++ rest = '-' :: (natDigits n.natAbs ++ rest) := by
      simp [jsonChars, intChars, hneg]
    rw [harg, pValue_into_number f '-' _ (by decide) (by decide) (by decide) (by decide)
      (by decide) (by decide) (by decide) (Or.inl rfl)]
    have hback : ('-' :: (natDigits n.natAbs ++ rest)) = intChars n ++ rest := by
      simp [intChars, hneg]
    rw [hback, pNumber_intChars n rest hr]
    rfl
  · obtain ⟨c, t, hnd, hc⟩ : ∃ c t, natDigits n.natAbs = c :: t ∧ isDigitC c = true := by
      match hnd : natDigits n.natAbs with
      | [] => exact absurd hnd (natDigits_ne_nil _)
      | c :: t =>
        refine ⟨c, t, rfl, natDigits_all_digits n.natAbs c ?_⟩
        rw [hnd]
        exact List.mem_cons_self c t
    have hd := digit_toNat_lt hc
    have harg : jsonChars (.num n) ++ rest = c :: (t ++ rest) := by
      simp [jsonChars, intChars, hneg, hnd]
    rw [harg, pValue_into_number f c _
      (by unfold isWsC; omega)
      (char_ne_of_toNat (by rw [show ('n').toNat = 110 from by decide]; omega))
      (char_ne_of_toNat (by rw [show ('t').toNat = 116 from by decide]; omega))
      (char_ne_of_toNat (by rw [show ('f').toNat = 102 from by decide]; omega))
      (char_ne_of_toNat (by rw [show quoteC.toNat = 34 from by decide]; omega))
      (char_ne_of_toNat (by rw [show ('[').toNat = 91 from by decide]; omega))
      (char_ne_of_toNat (by rw [show lbraceC.toNat = 123 from by decide]; omega))
      (Or.inr hc)]
    have hback : (c :: (t ++ rest)) = intChars n ++ rest := by
      simp [intChars, hneg, hnd]
    rw [hback, pNumber_intChars n rest hr]
    rfl

end ZkStorage

namespace ZkStorage

theorem numBreak_head_rsq (rest : List Char) : numBreak (']' :: rest) = true := by
  simp [numBreak]
  decide

theorem numBreak_head_comma (rest : List Char) : numBreak (',' :: rest) = true := by
  simp [numBreak]
  decide

theorem numBreak_head_rbrace (rest : List Char) : numBreak (rbraceC :: rest) = true := by
  simp [numBreak]
  decide

theorem numBreak_arrTail (es : List Json) (rest : List Char) :
    numBreak (jArrSep es ++ (']' :: rest)) = true := by
  cases es with
  | nil => simpa [jArrSep] using numBreak_head_rsq rest
  | cons x xs =>
    have h : jArrSep (x :: xs) ++ (']' :: rest)
        = ',' :: ((jsonChars x ++ jArrSep xs) ++ (']' :: rest)) := by
      simp [jArrSep]
    rw [h]
    exact numBreak_head_comma _

theorem numBreak_objTail (fs : List (String × Json)) (rest : List Char) :
    numBreak (jObjSep fs ++ (rbraceC :: rest)) = true := by
  cases fs with
  | nil => simpa [jObjSep] using numBreak_head_rbrace rest
  | cons x xs =>
    match x with
    | (k2, v2) =>
      have h : jObjSep ((k2, v2) :: xs) ++ (rbraceC :: rest)
          = ',' :: ((strLit k2 ++ (':' :: (jsonChars v2 ++ jObjSep xs))) ++ (rbraceC :: rest)) := by
        simp [jObjSep]
      rw [h]
      exact numBreak_head_comma _

theorem jsonChars_length_pos (j : Json) : 1 ≤ (jsonChars j).length := by
  obtain ⟨c, t, hct, -⟩ := jsonChars_head j
  rw [hct]
  simp

mutual
/-- Structural weight of a JSON value, used to drive the joint induction
of the round-trip proof. -/
def jweight : Json → Nat
  | .null => 1
  | .bool _ => 1
  | .num _ => 1
  | .str _ => 1
  | .arr es => 1 + jweightE es
  | .obj fs => 1 + jweightF fs

/-- Weight of an array element list. -/
def jweightE : List Json → Nat
  | [] => 1
  | e :: es => 1 + jweight e + jweightE es

/-- Weight of an object member list. -/
def jweightF : List (String × Json) → Nat
  | [] => 1
  | (_, v) :: fs => 1 + jweight v + jweightF fs
end

/-- The three round-trip statements, bounded by a weight budget. -/
def RtStmts (n : Nat) : Prop :=
  (∀ (j : Json) (fuel : Nat) (rest : List Char),
    jweight j ≤ n → (jsonChars j).length < fuel → numBreak rest = true →
    pValue fuel (jsonChars j ++ rest) = some (j, rest))
  ∧ (∀ (e : Json) (es : List Json) (fuel : Nat) (rest : List Char),
    jweightE (e :: es) ≤ n → (jArrChars (e :: es)).length + 1 < fuel + 1 →
    pElems (fuel + 1) (jArrChars (e :: es) ++ (']' :: rest)) = some (e :: es, rest))
  ∧ (∀ (k : String) (v : Json) (fs : List (String × Json)) (fuel : Nat) (rest : List Char),
    jweightF ((k, v) :: fs) ≤ n → (jObjChars ((k, v) :: fs)).length + 1 < fuel + 1 →
    pFields (fuel + 1) (jObjChars ((k, v) :: fs) ++ (rbraceC :: rest)) = some ((k, v) :: fs, rest))

theorem jweight_pos (j : Json) : 1 ≤ jweight j := by
  cases j <;> simp [jweight]

theorem jweightE_pos (es : List Json) : 1 ≤ jweightE es := by
  cases es with
  | nil => simp [jweightE]
  | cons e es =>
    simp only [jweightE]
    omega

theorem jweightF_pos (fs : List (String × Json)) : 1 ≤ jweightF fs := by
  cases fs with
  | nil => simp [jweightF]
  | cons x fs =>
    obtain ⟨k, v⟩ := x
    simp [jweightF]
    omega

/-- Joint induction over the weight budget: the reader inverts the writer
for values, element lists and member lists. -/
theorem rtStmts_all : ∀ n, RtStmts n := by
  intro n
  induction n with
  | zero =>
    refine ⟨?_, ?_, ?_⟩
    · intro j fuel rest hw hf hr
      exact absurd hw (by have := jweight_pos j; omega)
    · intro e es fuel rest hw hf
      exact absurd hw (by have := jweightE_pos (e :: es); omega)
    · intro k v fs fuel rest hw hf
      exact absurd hw (by have := jweightF_pos ((k, v) :: fs); omega)
  | succ n ih =>
    obtain ⟨ihV, ihE, ihF⟩ := ih
    refine ⟨?_, ?_, ?_⟩
    · -- values
      intro j fuel rest hw hf hr
      match j with
      | .null =>
        match fuel, hf with
        | f + 1, _ => rfl
      | .bool true =>
        match fuel, hf with
        | f + 1, _ => rfl
      | .bool false =>
        match fuel, hf with
        | f + 1, _ => rfl
      | .num m =>
        match fuel, hf with
        | f + 1, _ => exact pValue_num f m rest hr
      | .str s =>
        match fuel, hf with
        | f + 1, _ => exact pValue_str f s rest
      | .arr [] =>
        match fuel, hf with
        | f + 1, _ => rfl
      | .arr (e :: es) =>
        match fuel, hf with
        | f + 1, hff =>
          have hj : (jsonChars (.arr (e :: es))).length = (jArrChars (e :: es)).length + 2 := by
            simp [jsonChars]
          rw [hj] at hff
          have hwe : jweightE (e :: es) ≤ n := by
            simp only [jweight] at hw
            omega
          obtain ⟨f2, rfl⟩ : ∃ f2, f = f2 + 1 := ⟨f - 1, by omega⟩
          have key := ihE e es f2 rest hwe (by omega)
          rw [pValue_arr_cons (f2 + 1) e es rest, key]
          rfl
      | .obj [] =>
        match fuel, hf with
        | f + 1, _ => rfl
      | .obj ((k, v) :: fs) =>
        match fuel, hf with
        | f + 1, hff =>
          have hj : (jsonChars (.obj ((k, v) :: fs))).length
              = (jObjChars ((k, v) :: fs)).length + 2 := by
            simp [jsonChars]
          rw [hj] at hff
          have hwf : jweightF ((k, v) :: fs) ≤ n := by
            simp only [jweight] at hw
            omega
          obtain ⟨f2, rfl⟩ : ∃ f2, f = f2 + 1 := ⟨f - 1, by omega⟩
          have key := ihF k v fs f2 rest hwf (by omega)
          rw [pValue_obj_cons (f2 + 1) k v fs rest, key]
          rfl
    · -- element lists
      intro e es f rest hw hf
      have hwe : jweight e ≤ n := by
        simp only [jweightE] at hw
        have := jweightE_pos es
        omega
      have hsplit : jArrChars (e :: es) ++ (']' :: rest)
          = jsonChars e ++ (jArrSep es ++ (']' :: rest)) := by
        simp [jArrChars]
      have hlenE : (jsonChars e).length < f := by
        have h1 : (jArrChars (e :: es)).length
            = (jsonChars e).length + (jArrSep es).length := by
          simp [jArrChars]
        omega
      have hv := ihV e f (jArrSep es ++ (']' :: rest)) hwe hlenE (numBreak_arrTail es rest)
      simp only [pElems]
      rw [hsplit, hv]
      cases es with
      | nil =>
        have hA : jArrSep ([] : List Json) ++ (']' :: rest) = ']' :: rest := by
          simp [jArrSep]
        rw [hA]
        rfl
      | cons x xs =>
        have hA : jArrSep (x :: xs) ++ (']' :: rest)
            = ',' :: (jArrChars (x :: xs) ++ (']' :: rest)) := by
          simp [jArrSep, jArrChars]
        have hwx : jweightE (x :: xs) ≤ n := by
          simp only [jweightE] at hw ⊢
          have := jweight_pos e
          omega
        have hlenX : (jArrChars (x :: xs)).length + 1 < f := by
          have h1 : (jArrChars (e :: x :: xs)).length
              = (jsonChars e).length + 1 + (jArrChars (x :: xs)).length := by
            simp [jArrChars, jArrSep]
            omega
          have h2 := jsonChars_length_pos e
          omega
        obtain ⟨f2, rfl⟩ : ∃ f2, f = f2 + 1 := ⟨f - 1, by omega⟩
        have key := ihE x xs f2 rest hwx (by omega)
        have hsk : pSkipWs (',' :: (jArrChars (x :: xs) ++ (']' :: rest)))
            = ',' :: (jArrChars (x :: xs) ++ (']' :: rest)) :=
          pSkipWs_cons _ (by decide)
        rw [hA]
        simp only [hsk, key, Option.map_some']
    · -- member lists
      intro k v fs f rest hw hf
      have hklen : 2 ≤ (strLit k).length := by
        simp [strLit]
      have hwv : jweight v ≤ n := by
        simp only [jweightF] at hw
        have := jweightF_pos fs
        omega
      cases fs with
      | nil =>
        have hlenV : (jsonChars v).length < f := by
          have h1 : (jObjChars [(k, v)]).length
              = (strLit k).length + 1 + (jsonChars v).length := by
            simp [jObjChars, jObjSep]
            omega
          omega
        have hcons : jObjChars [(k, v)] ++ (rbraceC :: rest)
            = quoteC :: (escBody k.data
                ++ (quoteC :: (':' :: (jsonChars v ++ (rbraceC :: rest))))) := by
          simp [jObjChars, strLit, jObjSep]
        have hkey := pStrBody_escBody k.data
          ((escBody k.data ++ (quoteC :: (':' :: (jsonChars v ++ (rbraceC :: rest))))).length + 1)
          (':' :: (jsonChars v ++ (rbraceC :: rest)))
          (by
            have h1 := escBody_length_ge k.data
            simp only [List.length_append, List.length_cons]
            omega)
        have hv := ihV v f (rbraceC :: rest) hwv hlenV (numBreak_head_rbrace rest)
        have hskc : pSkipWs (':' :: (jsonChars v ++ (rbraceC :: rest)))
            = ':' :: (jsonChars v ++ (rbraceC :: rest)) := pSkipWs_cons _ (by decide)
        have hskr : pSkipWs (rbraceC :: rest) = rbraceC :: rest := pSkipWs_cons _ (by decide)
        simp only [pFields]
        rw [hcons, pSkipWs_cons _ (by decide)]
        simp only [if_pos (show quoteC = quoteC from rfl), hkey, hskc, hv, hskr,
          string_mk_data]
        rfl
      | cons x xs =>
        obtain ⟨k2, v2⟩ := x
        have hwx : jweightF ((k2, v2) :: xs) ≤ n := by
          simp only [jweightF] at hw ⊢
          have := jweight_pos v
          omega
        have hlenV : (jsonChars v).length < f := by
          have h1 : (jObjChars ((k, v) :: (k2, v2) :: xs)).length
              = (strLit k).length + 1 + (jsonChars v).length
                + (jObjSep ((k2, v2) :: xs)).length := by
            simp [jObjChars]
            omega
          omega
        have hT : jObjSep ((k2, v2) :: xs) ++ (rbraceC :: rest)
            = ',' :: (jObjChars ((k2, v2) :: xs) ++ (rbraceC :: rest)) := by
          simp [jObjSep, jObjChars]
        have hcons : jObjChars ((k, v) :: (k2, v2) :: xs) ++ (rbraceC :: rest)
            = quoteC :: (escBody k.data
                ++ (quoteC :: (':' :: (jsonChars v
                  ++ (',' :: (jObjChars ((k2, v2) :: xs) ++ (rbraceC :: rest))))))) := by
          rw [show jObjChars ((k, v) :: (k2, v2) :: xs)
              = strLit k ++ (':' :: (jsonChars v ++ jObjSep ((k2, v2) :: xs))) from rfl]
          rw [strLit]
          simp only [List.cons_append, List.append_assoc, List.nil_append, hT]
        have hkey := pStrBody_escBody k.data
          ((escBody k.data ++ (quoteC :: (':' :: (jsonChars v
            ++ (',' :: (jObjChars ((k2, v2) :: xs) ++ (rbraceC :: rest))))))).length + 1)
          (':' :: (jsonChars v ++ (',' :: (jObjChars ((k2, v2) :: xs) ++ (rbraceC :: rest)))))
          (by
            have h1 := escBody_length_ge k.data
            simp only [List.length_append, List.length_cons]
            omega)
        have hv := ihV v f
          (',' :: (jObjChars ((k2, v2) :: xs) ++ (rbraceC :: rest))) hwv hlenV
          (numBreak_head_comma _)
        have hskc : pSkipWs (':' :: (jsonChars v
            ++ (',' :: (jObjChars ((k2, v2) :: xs) ++ (rbraceC :: rest)))))
            = ':' :: (jsonChars v
              ++ (',' :: (jObjChars ((k2, v2) :: xs) ++ (rbraceC :: rest)))) :=
          pSkipWs_cons _ (by decide)
        have hskm : pSkipWs (',' :: (jObjChars ((k2, v2) :: xs) ++ (rbraceC :: rest)))
            = ',' :: (jObjChars ((k2, v2) :: xs) ++ (rbraceC :: rest)) :=
          pSkipWs_cons _ (by decide)
        have hlenX : (jObjChars ((k2, v2) :: xs)).length + 2 ≤ f := by
          have h1 : (jObjChars ((k, v) :: (k2, v2) :: xs)).length
              = (strLit k).length + 1 + (jsonChars v).length + 1
                + (jObjChars ((k2, v2) :: xs)).length := by
            simp [jObjChars, jObjSep]
            omega
          omega
        simp only [pFields]
        rw [hcons, pSkipWs_cons _ (by decide)]
        obtain ⟨f2, rfl⟩ : ∃ f2, f = f2 + 1 := ⟨f - 1, by omega⟩
        have key := ihF k2 v2 xs f2 rest hwx (by omega)
        simp only [if_pos (show quoteC = quoteC from rfl), hkey, hskc, hv, hskm, key,
          Option.map_some', string_mk_data]
        rfl

end ZkStorage


namespace ZkStorage

/-- The model JSON codec round-trip: parsing a rendered value returns it. -/
theorem jsonParse_jsonChars (j : Json) : jsonParse (jsonChars j) = some j := by
  have h := (rtStmts_all (jweight j)).1 j ((jsonChars j).length + 1) []
    (le_refl _) (by omega) rfl
  rw [List.append_nil] at h
  simp only [jsonParse, h]
  rfl

/-! ## Merkle commitment utilities

Shallow embedding of the commitment module.  `Uint8Array` chunks are
`List Nat`; hex digest strings are `String`.  SHA-256 itself is the
platform `crypto.subtle.digest` primitive, modelled as an abstract
function parameter `sha256 : List Nat → String`; every theorem below is
proved for an arbitrary choice of it. -/

/-- The tree structure returned by `createMerkleTree`. -/
structure MerkleTree where
  root : String
  leaves : List String
  depth : Nat
  nodes : List (List String)
deriving DecidableEq

/-- The proof structure returned by `generateProof`. -/
structure MerkleProof where
  leaf : String
  leafIndex : Nat
  siblings : List String
  pathIndices : List Nat
deriving DecidableEq

/-- Modelled from the spec: the JavaScript string comparison used by
`hashPair` through `left < right`, code-point lexicographic here (the
digests compared are ASCII hex strings, on which this agrees with the
UTF-16 code-unit order of JavaScript). -/
def charListLt : List Char → List Char → Bool
  | _, [] => false
  | [], _ :: _ => true
  | a :: as, b :: bs =>
    if a.toNat < b.toNat then true
    else if b.toNat < a.toNat then false
    else charListLt as bs

/-- String comparison over the character data. -/
def strLt (a b : String) : Bool := charListLt a.data b.data

section Merkle

variable (sha256 : List Nat → String)

/-- Hash two nodes together, sorting the operands first
(`hashPair` in the source). -/
def hashPair (left right : String) : String :=
  sha256 (utf8Encode (if strLt left right then left ++ right else right ++ left).data)

/-- One bottom-up folding step: hash adjacent pairs of a level.  The
single-element case mirrors the JavaScript read one past the end of an
odd-length level (`undefined`); it is unreachable on the power-of-two
levels the tree builder produces. -/
def combineLevel : List String → List String
  | a :: b :: rest => hashPair sha256 a b :: combineLevel rest
  | [a] => [hashPair sha256 a "undefined"]
  | [] => []

/-- Fuelled padding loop: append copies of the last leaf while the length
is not a power of two (`while (len & (len - 1))` in the source).  A fuel
equal to the starting length always reaches the fixed point. -/
def padTo (l : List String) : Nat → List String
  | 0 => l
  | fuel + 1 =>
    if l.length &&& (l.length - 1) = 0 then l
    else padTo (l ++ [l.getLastD ""]) fuel

/-- Fuelled bottom-up level construction (`while (currentLevel.length >
1)` in the source); each level at least halves, so a fuel equal to the
leaf count suffices. -/
def buildLevelsF : Nat → List String → List (List String)
  | 0, l => [l]
  | fuel + 1, l =>
    if l.length ≤ 1 then [l] else l :: buildLevelsF fuel (combineLevel sha256 l)

/-- All levels of the tree, bottom first. -/
def buildLevels (l : List String) : List (List String) :=
  buildLevelsF sha256 l.length l

/-- Modelled from `createMerkleTree` in the source: reject empty input,
hash the chunks into leaves, pad to a power of two, fold levels, and
package the tree. -/
def createMerkleTree (chunks : List (List Nat)) : Except String MerkleTree :=
  if chunks.length = 0 then .error "Cannot create Merkle tree from empty chunks"
  else
    let leaves := chunks.map sha256
    let paddedLeaves := padTo leaves leaves.length
    let nodes := buildLevels sha256 paddedLeaves
    .ok { root := (nodes.getLastD []).getD 0 ""
          leaves := leaves
          depth := nodes.length - 1
          nodes := nodes }

/-- The fixed chunk size used by `createCommitment` (16 KiB). -/
def CHUNK_SIZE : Nat := 16 * 1024

/-- Fuelled chunking loop (`for (i = 0; i < data.length; i += CHUNK_SIZE)`
in the source); each slice consumes at least one byte. -/
def chunksOfF : Nat → List Nat → List (List Nat)
  | _, [] => []
  | 0, _ :: _ => []
  | fuel + 1, d :: ds =>
    (d :: ds).take CHUNK_SIZE :: chunksOfF fuel ((d :: ds).drop CHUNK_SIZE)

/-- Split a byte list into consecutive 16 KiB chunks. -/
def chunksOf (data : List Nat) : List (List Nat) :=
  chunksOfF data.length data

/-- The chunk list `createCommitment` builds the tree from: the 16 KiB
chunks of the data, or one empty chunk when there are none. -/
def commitChunks (data : List Nat) : List (List Nat) :=
  let chunks := chunksOf data
  if chunks.isEmpty then [([] : List Nat)] else chunks

/-- Modelled from `createCommitment` in the source: chunk the data (an
empty input contributes one empty chunk), build the tree, return the root
as commitment together with the tree. -/
def createCommitment (data : List Nat) : Except String (String × MerkleTree) :=
  (createMerkleTree sha256 (commitChunks data)).map (fun tree => (tree.root, tree))

/-- The per-level walk of `generateProof`: record the sibling (skipping it
when the defensive bound check fails) and halve the index. -/
def buildPath : List (List String) → Nat → List String × List Nat
  | [], _ => ([], [])
  | lvl :: rest, idx =>
    let siblingIdx := if idx % 2 = 1 then idx - 1 else idx + 1
    let p := buildPath rest (idx / 2)
    if siblingIdx < lvl.length then
      (lvl.getD siblingIdx "" :: p.1, (if idx % 2 = 1 then 0 else 1) :: p.2)
    else p

/-- Modelled from `generateProof` in the source.  The index is a `Nat`
here; the source additionally rejects negative numbers, which do not
arise in this model. -/
def generateProof (tree : MerkleTree) (leafIndex : Nat) : Except String MerkleProof :=
  if leafIndex ≥ tree.leaves.length then .error "Leaf index out of bounds"
  else
    let p := buildPath (tree.nodes.take tree.depth) leafIndex
    .ok { leaf := tree.leaves.getD leafIndex ""
          leafIndex := leafIndex
          siblings := p.1
          pathIndices := p.2 }

/-- The verification fold of `verifyProof`: hash the current value with
each sibling in order; a `pathIndices` entry of `0` puts the sibling on
the left, anything else (including the `undefined` read past the end of a
short list) puts it on the right. -/
def foldProof : String → List String → List Nat → String
  | cur, [], _ => cur
  | cur, s :: ss, pis =>
    foldProof (if pis.headD 1 = 0 then hashPair sha256 s cur else hashPair sha256 cur s)
      ss pis.tail

/-- Modelled from `verifyProof` in the source. -/
def verifyProof (root : String) (proof : MerkleProof) : Bool :=
  foldProof sha256 proof.leaf proof.siblings proof.pathIndices == root

/-- The metadata object passed to `createCommitmentWithMetadata`. -/
structure CommitMetadata where
  retentionDays : Nat
  consentSigned : Bool
  timestamp : Nat
deriving DecidableEq

/-- The JSON value `JSON.stringify` receives for the metadata: fields in
insertion order `retentionDays`, `consentSigned`, `timestamp`. -/
def metadataJson (m : CommitMetadata) : Json :=
  .obj [("retentionDays", .num (m.retentionDays : Int)),
        ("consentSigned", .bool m.consentSigned),
        ("timestamp", .num (m.timestamp : Int))]

/-- The result record of `createCommitmentWithMetadata`. -/
structure CommitmentWithMetadata where
  commitment : String
  metadataHash : String
  combinedCommitment : String
deriving DecidableEq

/-- Modelled from `createCommitmentWithMetadata` in the source: data
commitment, SHA-256 of the UTF-8 bytes of the metadata JSON, and their
`hashPair` combination. -/
def createCommitmentWithMetadata (data : List Nat) (m : CommitMetadata) :
    Except String CommitmentWithMetadata :=
  (createCommitment sha256 data).map (fun p =>
    let metadataHash := sha256 (utf8Encode (jsonStringify (metadataJson m)).data)
    { commitment := p.1
      metadataHash := metadataHash
      combinedCommitment := hashPair sha256 p.1 metadataHash })

end Merkle

/-! ### Properties of the sorted pairing -/

theorem charListLt_asymm : ∀ a b, charListLt a b = true → charListLt b a = false
  | _, [], h => by simp [charListLt] at h
  | [], _ :: _, _ => by simp [charListLt]
  | a :: as, b :: bs, h => by
    simp only [charListLt] at h ⊢
    by_cases h1 : a.toNat < b.toNat
    · rw [if_neg (by omega : ¬ b.toNat < a.toNat), if_pos h1]
    · by_cases h2 : b.toNat < a.toNat
      · rw [if_neg h1, if_pos h2] at h
        exact absurd h (by simp)
      · rw [if_neg h1, if_neg h2] at h
        rw [if_neg h2, if_neg h1]
        exact charListLt_asymm as bs h

theorem charListLt_total_eq : ∀ a b, charListLt a b = false → charListLt b a = false → a = b
  | [], [], _, _ => rfl
  | [], _ :: _, h, _ => by simp [charListLt] at h
  | _ :: _, [], _, h2 => by simp [charListLt] at h2
  | a :: as, b :: bs, h, h2 => by
    simp only [charListLt] at h h2
    by_cases h1 : a.toNat < b.toNat
    · rw [if_pos h1] at h
      exact absurd h (by simp)
    · by_cases hb : b.toNat < a.toNat
      · rw [if_pos hb] at h2
        exact absurd h2 (by simp)
      · rw [if_neg h1, if_neg hb] at h
        rw [if_neg hb, if_neg h1] at h2
        have hab : a = b := char_toNat_inj (by omega)
        have htl := charListLt_total_eq as bs h h2
        rw [hab, htl]

/-- Two strings with equal character data are equal. -/
theorem string_data_eq : ∀ {a b : String}, a.data = b.data → a = b
  | ⟨_⟩, ⟨_⟩, h => by simp at h; rw [h]

theorem strLt_asymm {a b : String} (h : strLt a b = true) : strLt b a = false :=
  charListLt_asymm a.data b.data h

theorem strLt_total_eq {a b : String} (h : strLt a b = false) (h2 : strLt b a = false) :
    a = b :=
  string_data_eq (charListLt_total_eq a.data b.data h h2)

/-- The sorted pairing is symmetric in its two arguments. -/
theorem hashPair_comm (sha256 : List Nat → String) (a b : String) :
    hashPair sha256 a b = hashPair sha256 b a := by
  unfold hashPair
  by_cases hab : strLt a b = true
  · have hba := strLt_asymm hab
    simp [hab, hba]
  · have hab' : strLt a b = false := by
      simpa using hab
    by_cases hba : strLt b a = true
    · simp [hab', hba]
    · have hba' : strLt b a = false := by
        simpa using hba
      have heq : a = b := strLt_total_eq hab' hba'
      rw [heq]

/-- The verification fold ignores the direction flags entirely: whatever
is stored in `pathIndices`, each step hashes the same unordered pair. -/
theorem foldProof_pathIndices (sha256 : List Nat → String) :
    ∀ (sibs : List String) (cur : String) (pis pis' : List Nat),
    foldProof sha256 cur sibs pis = foldProof sha256 cur sibs pis'
  | [], _, _, _ => rfl
  | s :: ss, cur, pis, pis' => by
    simp only [foldProof]
    have h1 : (if pis.headD 1 = 0 then hashPair sha256 s cur else hashPair sha256 cur s)
        = hashPair sha256 cur s := by
      split
      · exact hashPair_comm sha256 s cur
      · rfl
    have h2 : (if pis'.headD 1 = 0 then hashPair sha256 s cur else hashPair sha256 cur s)
        = hashPair sha256 cur s := by
      split
      · exact hashPair_comm sha256 s cur
      · rfl
    rw [h1, h2]
    exact foldProof_pathIndices sha256 ss (hashPair sha256 cur s) pis.tail pis'.tail

/-! ### The padding loop reaches a power of two -/

/-- A number in a dyadic window has its top bit set. -/
theorem testBit_of_window {n j : Nat} (h1 : 2 ^ j ≤ n) (h2 : n < 2 ^ (j + 1)) :
    n.testBit j = true := by
  rw [Nat.testBit_to_div_mod]
  have hp : 0 < 2 ^ j := Nat.pos_pow_of_pos j (by omega)
  have h3 : 1 ≤ n / 2 ^ j := (Nat.one_le_div_iff hp).mpr h1
  have h4 : n / 2 ^ j < 2 := by
    rw [Nat.div_lt_iff_lt_mul hp]
    rw [Nat.pow_succ] at h2
    omega
  have h5 : n / 2 ^ j = 1 := by omega
  simp [h5]

/-- The `n & (n - 1)` test of the source characterises the powers of two
on positive numbers. -/
theorem land_pred_zero_iff {n : Nat} (hn : 1 ≤ n) :
    n &&& (n - 1) = 0 ↔ ∃ k, n = 2 ^ k := by
  constructor
  · intro h
    refine ⟨n.log2, ?_⟩
    by_contra hne
    have hlow : 2 ^ n.log2 ≤ n := Nat.log2_self_le (by omega)
    have hhigh : n < 2 ^ (n.log2 + 1) := Nat.lt_log2_self
    have hlt : 2 ^ n.log2 < n := by omega
    have ht1 : n.testBit n.log2 = true := testBit_of_window hlow hhigh
    have ht2 : (n - 1).testBit n.log2 = true := testBit_of_window (by omega) (by omega)
    have hb := Nat.testBit_and n (n - 1) n.log2
    rw [h, Nat.zero_testBit, ht1, ht2] at hb
    simp at hb
  · rintro ⟨k, rfl⟩
    apply Nat.eq_of_testBit_eq
    intro i
    rw [Nat.testBit_and, Nat.zero_testBit, Nat.testBit_two_pow_sub_one]
    by_cases hik : i = k
    · subst hik
      simp
    · rw [Nat.testBit_two_pow_of_ne (fun hc => hik hc.symm)]
      simp

/-- Every positive number has an enclosing power of two within a factor
of two. -/
theorem exists_pow2_between (n : Nat) (hn : 1 ≤ n) : ∃ k, n ≤ 2 ^ k ∧ 2 ^ k ≤ 2 * n := by
  induction n with
  | zero => omega
  | succ m ih =>
    by_cases hm : 1 ≤ m
    · obtain ⟨k, hk1, hk2⟩ := ih hm
      by_cases h : m + 1 ≤ 2 ^ k
      · exact ⟨k, h, by omega⟩
      · refine ⟨k + 1, ?_, ?_⟩ <;> simp [Nat.pow_succ] <;> omega
    · exact ⟨0, by omega, by omega⟩

/-- Appending one element moves the last element to it. -/
theorem getLastD_concat (l : List String) (x d : String) : (l ++ [x]).getLastD d = x := by
  simp [List.getLastD_eq_getLast?]

/-- The padding loop only appends copies of the last element. -/
theorem padTo_spec : ∀ (fuel : Nat) (l : List String), l ≠ [] →
    ∃ m, padTo l fuel = l ++ List.replicate m (l.getLastD "")
  | 0, l, _ => ⟨0, by simp [padTo]⟩
  | fuel + 1, l, hne => by
    rw [padTo]
    by_cases hc : l.length &&& (l.length - 1) = 0
    · exact ⟨0, by simp [hc]⟩
    · rw [if_neg hc]
      obtain ⟨m, hm⟩ := padTo_spec fuel (l ++ [l.getLastD ""]) (by simp)
      rw [getLastD_concat] at hm
      exact ⟨m + 1, by rw [hm, List.append_assoc, List.singleton_append,
        ← List.replicate_succ]⟩

/-- With enough fuel and an enclosing power of two in reach, the padding
loop stops at a power-of-two length. -/
theorem padTo_pow2 : ∀ (fuel : Nat) (l : List String) (k : Nat), l ≠ [] →
    l.length ≤ 2 ^ k → 2 ^ k ≤ l.length + fuel →
    ∃ j, (padTo l fuel).length = 2 ^ j
  | 0, l, k, _, h1, h2 => ⟨k, by rw [padTo]; omega⟩
  | fuel + 1, l, k, hne, h1, h2 => by
    rw [padTo]
    have hpos : 1 ≤ l.length := by
      cases l with
      | nil => exact absurd rfl hne
      | cons a t => simp
    by_cases hc : l.length &&& (l.length - 1) = 0
    · rw [if_pos hc]
      exact (land_pred_zero_iff hpos).mp hc
    · rw [if_neg hc]
      have hnp : ¬ ∃ j, l.length = 2 ^ j := fun hj => hc ((land_pred_zero_iff hpos).mpr hj)
      have hlt : l.length < 2 ^ k := by
        rcases Nat.lt_or_ge l.length (2 ^ k) with h | h
        · exact h
        · exact absurd ⟨k, by omega⟩ hnp
      exact padTo_pow2 fuel (l ++ [l.getLastD ""]) k (by simp)
        (by simp; omega) (by simp; omega)

/-! ### Shape of the level stack -/

theorem combineLevel_length (sha256 : List Nat → String) :
    ∀ l, (combineLevel sha256 l).length = (l.length + 1) / 2
  | [] => rfl
  | [_] => by simp [combineLevel]
  | a :: b :: rest => by
    simp only [combineLevel, List.length_cons]
    rw [combineLevel_length sha256 rest]
    omega

theorem combineLevel_getD (sha256 : List Nat → String) :
    ∀ (l : List String) (j : Nat), 2 * j + 1 < l.length →
    (combineLevel sha256 l).getD j ""
      = hashPair sha256 (l.getD (2 * j) "") (l.getD (2 * j + 1) "")
  | [], j, h => by simp at h
  | [_], j, h => by simp at h
  | a :: b :: rest, 0, _ => by simp [combineLevel, List.getD]
  | a :: b :: rest, j + 1, h => by
    have hr := combineLevel_getD sha256 rest j (by simp at h; omega)
    simp only [combineLevel]
    rw [show 2 * (j + 1) = 2 * j + 1 + 1 from by ring]
    rw [List.getD_cons_succ, List.getD_cons_succ, List.getD_cons_succ,
      List.getD_cons_succ, List.getD_cons_succ]
    exact hr

/-- The fuel of the level builder is irrelevant once it covers the level
length. -/
theorem buildLevelsF_stable (sha256 : List Nat → String) :
    ∀ (n : Nat) (l : List String) (f g : Nat),
    l.length ≤ n → l.length ≤ f → l.length ≤ g →
    buildLevelsF sha256 f l = buildLevelsF sha256 g l := by
  intro n
  induction n with
  | zero =>
    intro l f g h0 hf hg
    have : l.length ≤ 1 := by omega
    cases f <;> cases g <;> simp [buildLevelsF, this]
  | succ n ih =>
    intro l f g h0 hf hg
    by_cases hlen : l.length ≤ 1
    · cases f <;> cases g <;> simp [buildLevelsF, hlen]
    · have hf2 : 2 ≤ f := by omega
      have hg2 : 2 ≤ g := by omega
      obtain ⟨f2, rfl⟩ : ∃ f2, f = f2 + 1 := ⟨f - 1, by omega⟩
      obtain ⟨g2, rfl⟩ : ∃ g2, g = g2 + 1 := ⟨g - 1, by omega⟩
      simp only [buildLevelsF, if_neg hlen]
      have hcl : (combineLevel sha256 l).length = (l.length + 1) / 2 :=
        combineLevel_length sha256 l
      rw [ih (combineLevel sha256 l) f2 g2 (by omega) (by omega) (by omega)]

theorem buildLevels_small (sha256 : List Nat → String) (l : List String)
    (h : l.length ≤ 1) : buildLevels sha256 l = [l] := by
  unfold buildLevels
  cases hl : l.length with
  | zero => rfl
  | succ m =>
    rw [buildLevelsF]
    rw [if_pos (by omega)]

theorem buildLevels_step (sha256 : List Nat → String) (l : List String)
    (h : 2 ≤ l.length) :
    buildLevels sha256 l = l :: buildLevels sha256 (combineLevel sha256 l) := by
  unfold buildLevels
  obtain ⟨f, hf⟩ : ∃ f, l.length = f + 1 := ⟨l.length - 1, by omega⟩
  rw [hf, buildLevelsF, if_neg (by omega)]
  have hcl : (combineLevel sha256 l).length = (l.length + 1) / 2 :=
    combineLevel_length sha256 l
  rw [buildLevelsF_stable sha256 (combineLevel sha256 l).length (combineLevel sha256 l)
    f (combineLevel sha256 l).length (le_refl _) (by omega) (le_refl _)]

theorem buildLevels_ne_nil (sha256 : List Nat → String) (l : List String) :
    buildLevels sha256 l ≠ [] := by
  unfold buildLevels
  cases hl : l.length with
  | zero => simp [buildLevelsF]
  | succ m =>
    rw [buildLevelsF]
    split <;> simp

/-- Level sizes: level `i` of a `2 ^ k`-leaf tree has `2 ^ (k - i)`
nodes, and there are `k + 1` levels. -/
theorem buildLevels_shape (sha256 : List Nat → String) :
    ∀ (k : Nat) (l : List String), l.length = 2 ^ k →
    (buildLevels sha256 l).length = k + 1 ∧
    ∀ i, i ≤ k → ((buildLevels sha256 l).getD i []).length = 2 ^ (k - i) := by
  intro k
  induction k with
  | zero =>
    intro l hl
    rw [buildLevels_small sha256 l (by omega)]
    refine ⟨rfl, ?_⟩
    intro i hi
    have : i = 0 := by omega
    subst this
    simpa using hl
  | succ k ih =>
    intro l hl
    have h2k : 1 ≤ 2 ^ k := Nat.one_le_two_pow
    have h2 : 2 ≤ l.length := by
      rw [hl, Nat.pow_succ]
      omega
    have hstep := buildLevels_step sha256 l h2
    have hcl : (combineLevel sha256 l).length = 2 ^ k := by
      rw [combineLevel_length sha256 l, hl, Nat.pow_succ]
      omega
    obtain ⟨ih1, ih2⟩ := ih (combineLevel sha256 l) hcl
    rw [hstep]
    constructor
    · simp [ih1]
    · intro i hi
      cases i with
      | zero => simpa using hl
      | succ i =>
        rw [List.getD_cons_succ]
        rw [show k + 1 - (i + 1) = k - i from by omega]
        exact ih2 i (by omega)

/-- A nonempty list has the same `getLastD` under any default. -/
theorem getLastD_irrel {l : List String} (h : l ≠ []) (d d' : String) :
    l.getLastD d = l.getLastD d' := by
  cases l with
  | nil => exact absurd rfl h
  | cons a t => rw [List.getLastD_cons, List.getLastD_cons]

/-- A nonempty list of levels has the same `getLastD` under any default. -/
theorem getLastD_irrel_lvl {l : List (List String)} (h : l ≠ []) (d d' : List String) :
    l.getLastD d = l.getLastD d' := by
  cases l with
  | nil => exact absurd rfl h
  | cons a t => rw [List.getLastD_cons, List.getLastD_cons]

/-- The root expression used by `createMerkleTree`: first element of the
last level. -/
def rootOf (sha256 : List Nat → String) (l : List String) : String :=
  ((buildLevels sha256 l).getLastD []).getD 0 ""

theorem rootOf_step (sha256 : List Nat → String) (l : List String) (h : 2 ≤ l.length) :
    rootOf sha256 l = rootOf sha256 (combineLevel sha256 l) := by
  unfold rootOf
  rw [buildLevels_step sha256 l h, List.getLastD_cons,
    getLastD_irrel_lvl (buildLevels_ne_nil sha256 _) l []]

/-- The path walk of `generateProof` over a power-of-two tree records one
sibling per level and the verification fold of those siblings reproduces
the root, whatever the starting index. -/
theorem fold_path_root (sha256 : List Nat → String) :
    ∀ (k : Nat) (l : List String) (idx : Nat), l.length = 2 ^ k → idx < l.length →
    (buildPath ((buildLevels sha256 l).take k) idx).1.length = k ∧
    foldProof sha256 (l.getD idx "")
        (buildPath ((buildLevels sha256 l).take k) idx).1
        (buildPath ((buildLevels sha256 l).take k) idx).2
      = rootOf sha256 l := by
  intro k
  induction k with
  | zero =>
    intro l idx hl hidx
    have hidx0 : idx = 0 := by omega
    subst hidx0
    rw [buildLevels_small sha256 l (by omega)]
    refine ⟨rfl, ?_⟩
    rw [rootOf, buildLevels_small sha256 l (by omega)]
    simp [buildPath, foldProof, List.getLastD]
  | succ k ih =>
    intro l idx hl hidx
    have h2k : 1 ≤ 2 ^ k := Nat.one_le_two_pow
    have h2 : 2 ≤ l.length := by
      rw [hl, Nat.pow_succ]
      omega
    have hstep := buildLevels_step sha256 l h2
    have hcl : (combineLevel sha256 l).length = 2 ^ k := by
      rw [combineLevel_length sha256 l, hl, Nat.pow_succ]
      omega
    have heven : l.length % 2 = 0 := by
      rw [hl, Nat.pow_succ]
      omega
    have hsib : (if idx % 2 = 1 then idx - 1 else idx + 1) < l.length := by
      by_cases hp : idx % 2 = 1
      · rw [if_pos hp]
        omega
      · rw [if_neg hp]
        omega
    have hhalf : idx / 2 < (combineLevel sha256 l).length := by
      rw [hcl]
      rw [hl, Nat.pow_succ] at hidx
      omega
    obtain ⟨ihlen, ihfold⟩ := ih (combineLevel sha256 l) (idx / 2) hcl hhalf
    rw [hstep, List.take_succ_cons]
    constructor
    · simp only [buildPath]
      rw [if_pos hsib]
      simp only [List.length_cons]
      omega
    · simp only [buildPath]
      rw [if_pos hsib]
      simp only [foldProof, List.headD_cons, List.tail_cons]
      have hnext : (if (if idx % 2 = 1 then 0 else 1) = 0
          then hashPair sha256 (l.getD (if idx % 2 = 1 then idx - 1 else idx + 1) "")
            (l.getD idx "")
          else hashPair sha256 (l.getD idx "")
            (l.getD (if idx % 2 = 1 then idx - 1 else idx + 1) ""))
          = (combineLevel sha256 l).getD (idx / 2) "" := by
        by_cases hp : idx % 2 = 1
        · rw [if_pos hp, if_pos hp, if_pos rfl]
          have hcomb := combineLevel_getD sha256 l (idx / 2) (by omega)
          rw [show 2 * (idx / 2) + 1 = idx from by omega,
            show 2 * (idx / 2) = idx - 1 from by omega] at hcomb
          rw [hcomb]
        · rw [if_neg hp, if_neg hp, if_neg (by omega)]
          have hcomb := combineLevel_getD sha256 l (idx / 2) (by omega)
          rw [show 2 * (idx / 2) + 1 = idx + 1 from by omega,
            show 2 * (idx / 2) = idx from by omega] at hcomb
          rw [hcomb]
      rw [hnext, ihfold, rootOf_step sha256 l h2]

/-! ### Anatomy of a built tree -/

/-- `getD` on an append reads from the left part while in range. -/
theorem getD_append_left_str (l l2 : List String) (i : Nat) (h : i < l.length) :
    (l ++ l2).getD i "" = l.getD i "" := by
  simp [List.getD, List.getElem?_append_left h]

/-- Everything `createMerkleTree` guarantees about the tree it returns on
a nonempty chunk list. -/
theorem createMerkleTree_spec (sha256 : List Nat → String) (chunks : List (List Nat))
    (hne : chunks ≠ []) :
    ∃ tree k m, createMerkleTree sha256 chunks = .ok tree ∧
      tree.leaves = chunks.map sha256 ∧
      tree.nodes = buildLevels sha256 (padTo tree.leaves tree.leaves.length) ∧
      tree.depth = k ∧
      tree.root = rootOf sha256 (padTo tree.leaves tree.leaves.length) ∧
      (padTo tree.leaves tree.leaves.length).length = 2 ^ k ∧
      padTo tree.leaves tree.leaves.length
        = tree.leaves ++ List.replicate m (tree.leaves.getLastD "") := by
  have hlen : chunks.length ≠ 0 := by
    cases chunks with
    | nil => exact absurd rfl hne
    | cons a t => simp
  have hleavesne : chunks.map sha256 ≠ [] := by
    cases chunks with
    | nil => exact absurd rfl hne
    | cons a t => simp
  have hleavespos : 1 ≤ (chunks.map sha256).length := by
    cases chunks with
    | nil => exact absurd rfl hne
    | cons a t => simp
  obtain ⟨kp, hk1, hk2⟩ := exists_pow2_between (chunks.map sha256).length hleavespos
  obtain ⟨k, hpow⟩ := padTo_pow2 (chunks.map sha256).length (chunks.map sha256) kp
    hleavesne hk1 (by omega)
  obtain ⟨m, hrep⟩ := padTo_spec (chunks.map sha256).length (chunks.map sha256) hleavesne
  have hok : createMerkleTree sha256 chunks = .ok
      { root := ((buildLevels sha256
            (padTo (chunks.map sha256) (chunks.map sha256).length)).getLastD []).getD 0 ""
        leaves := chunks.map sha256
        depth := (buildLevels sha256
            (padTo (chunks.map sha256) (chunks.map sha256).length)).length - 1
        nodes := buildLevels sha256
            (padTo (chunks.map sha256) (chunks.map sha256).length) } := by
    simp only [createMerkleTree, if_neg hlen]
  refine ⟨_, k, m, hok, rfl, rfl, ?_, rfl, hpow, hrep⟩
  show (buildLevels sha256 (padTo (chunks.map sha256) (chunks.map sha256).length)).length
      - 1 = k
  rw [(buildLevels_shape sha256 k _ hpow).1]
  omega

/-- On a tree built by `createMerkleTree`, `generateProof` succeeds at
every in-range index, records exactly `depth` siblings, and
`verifyProof` accepts the proof against the root. -/
theorem generateProof_verify (sha256 : List Nat → String) (chunks : List (List Nat))
    (tree : MerkleTree) (hok : createMerkleTree sha256 chunks = .ok tree)
    (i : Nat) (hi : i < tree.leaves.length) :
    ∃ p, generateProof tree i = .ok p ∧
      p.siblings.length = tree.depth ∧
      verifyProof sha256 tree.root p = true ∧
      p.leaf = tree.leaves.getD i "" ∧ p.leafIndex = i := by
  have hne : chunks ≠ [] := by
    intro hc
    subst hc
    simp [createMerkleTree] at hok
  obtain ⟨tree', k, m, hok', hleaves, hnodes, hdepth, hroot, hpow, hrep⟩ :=
    createMerkleTree_spec sha256 chunks hne
  rw [hok'] at hok
  have htree : tree = tree' := (Except.ok.inj hok).symm
  subst htree
  have hprefix : i < (padTo tree.leaves tree.leaves.length).length := by
    rw [hrep]
    simp only [List.length_append]
    omega
  have hleaf : tree.leaves.getD i "" = (padTo tree.leaves tree.leaves.length).getD i "" := by
    rw [hrep, getD_append_left_str _ _ i hi]
  obtain ⟨hplen, hpfold⟩ := fold_path_root sha256 k
    (padTo tree.leaves tree.leaves.length) i hpow hprefix
  have hgen : generateProof tree i = .ok
      { leaf := tree.leaves.getD i ""
        leafIndex := i
        siblings := (buildPath (tree.nodes.take tree.depth) i).1
        pathIndices := (buildPath (tree.nodes.take tree.depth) i).2 } := by
    simp only [generateProof, if_neg (by omega : ¬ i ≥ tree.leaves.length)]
  refine ⟨_, hgen, ?_, ?_, rfl, rfl⟩
  · show (buildPath (tree.nodes.take tree.depth) i).1.length = tree.depth
    rw [hnodes, hdepth]
    exact hplen
  · show (foldProof sha256 (tree.leaves.getD i "")
        (buildPath (tree.nodes.take tree.depth) i).1
        (buildPath (tree.nodes.take tree.depth) i).2 == tree.root) = true
    rw [hnodes, hdepth, hleaf, hpfold, hroot]
    simp

/-- The chunk list used by `createCommitment` is never empty. -/
theorem commitChunks_ne_nil (data : List Nat) : commitChunks data ≠ [] := by
  unfold commitChunks
  by_cases h : (chunksOf data).isEmpty
  · simp [h]
  · simp [h]
    intro hc
    rw [hc] at h
    exact h rfl

/-- `createCommitment` always succeeds and returns the tree root as the
commitment. -/
theorem createCommitment_ok (sha256 : List Nat → String) (data : List Nat) :
    ∃ tree, createCommitment sha256 data = .ok (tree.root, tree) ∧
      createMerkleTree sha256 (commitChunks data) = .ok tree := by
  obtain ⟨tree, k, m, hok, -⟩ :=
    createMerkleTree_spec sha256 (commitChunks data) (commitChunks_ne_nil data)
  refine ⟨tree, ?_, hok⟩
  simp [createCommitment, hok, Except.map]

/-! ## Seal layer (frontend/lib/seal.ts)

Policies, envelopes, policy-gated decryption, envelope serialization and
consent verification.  The AES-256-GCM cipher behind `crypto.subtle` is a
platform primitive; it is modelled as masking with an abstract key stream
and appending a 16-byte authentication tag computed by an abstract tag
function — the theorems hold for every choice of both.  Randomness (the
generated key and nonce) enters as explicit parameters. -/

/-- The `type` union of a policy. -/
inductive PolicyType
  | timeLock
  | threshold
  | allowlist
  | custom
deriving DecidableEq

/-- The `threshold` sub-object of a policy. -/
structure SealThreshold where
  required : Nat
  total : Nat
  keyHolders : List String
deriving DecidableEq

/-- The `SealPolicy` record.  Times are epoch milliseconds. -/
structure SealPolicy where
  id : String
  type : PolicyType
  retentionDays : Nat
  consentRequired : Bool
  consentSignature : Option String
  threshold : Option SealThreshold
  allowlist : Option (List String)
  expiresAt : Nat
  createdAt : Nat
deriving DecidableEq

/-- The `metadata` sub-object of an envelope. -/
structure EnvMetadata where
  originalSize : Nat
  algorithm : String
  version : Nat
deriving DecidableEq

/-- The `EncryptedEnvelope` record; byte arrays as `List Nat`. -/
structure EncryptedEnvelope where
  ciphertext : List Nat
  nonce : List Nat
  policyId : String
  encryptedKey : List Nat
  metadata : EnvMetadata
deriving DecidableEq

/-- The failures `decryptWithSeal` can raise: the two policy errors
thrown explicitly by the source, and the authenticated-decryption
failure raised from inside `crypto.subtle.decrypt`. -/
inductive SealError
  | policyExpired
  | accessDenied
  | authenticationFailed
deriving DecidableEq

section Seal

variable (gcmMask : List Nat → List Nat → Nat → Nat)
variable (gcmTagByte : List Nat → List Nat → List Nat → Nat → Nat)

/-- Mask a byte list with the key stream starting at a position; XOR is
its own inverse, which is all the round-trip needs. -/
def xorKeystream (key nonce : List Nat) : Nat → List Nat → List Nat
  | _, [] => []
  | i, b :: bs => (b ^^^ gcmMask key nonce i) :: xorKeystream key nonce (i + 1) bs

/-- The 16-byte authentication tag over the ciphertext body. -/
def gcmTag (key nonce body : List Nat) : List Nat :=
  (List.range 16).map (gcmTagByte key nonce body)

/-- Modelled from the spec: AES-256-GCM encryption — masked body followed
by the 16-byte tag, as `crypto.subtle.encrypt` appends it. -/
def aesGcmEncrypt (key nonce pt : List Nat) : List Nat :=
  xorKeystream gcmMask key nonce 0 pt
    ++ gcmTag gcmTagByte key nonce (xorKeystream gcmMask key nonce 0 pt)

/-- Modelled from the spec: AES-256-GCM decryption — check the trailing
tag, unmask the body; a bad tag raises the authentication failure. -/
def aesGcmDecrypt (key nonce ct : List Nat) : Except SealError (List Nat) :=
  if ct.length < 16 then .error .authenticationFailed
  else if ct.drop (ct.length - 16)
      = gcmTag gcmTagByte key nonce (ct.take (ct.length - 16)) then
    .ok (xorKeystream gcmMask key nonce 0 (ct.take (ct.length - 16)))
  else .error .authenticationFailed

/-- Modelled from `encryptWithSeal` in the source, with the generated raw
key and nonce as parameters: encrypt the data, store the raw key as
`encryptedKey`, fill the metadata. -/
def encryptWithSeal (data : List Nat) (policy : SealPolicy)
    (rawKey nonce : List Nat) : EncryptedEnvelope :=
  { ciphertext := aesGcmEncrypt gcmMask gcmTagByte rawKey nonce data
    nonce := nonce
    policyId := policy.id
    encryptedKey := rawKey
    metadata := { originalSize := data.length, algorithm := "AES-256-GCM", version := 1 } }

end Seal

/-- The allowlist test of `decryptWithSeal`, exactly as the source writes
it: `policy.allowlist && !policy.allowlist.includes(requesterAddress)`.
A present-but-empty array is truthy in JavaScript, so it denies every
requester. -/
def allowlistDenies (policy : SealPolicy) (requesterAddress : String) : Bool :=
  match policy.allowlist with
  | some l => !(l.contains requesterAddress)
  | none => false

/-- The policy gate at the top of `decryptWithSeal` (seal.ts lines
158-166), factored as the contract `checkAccess` of the spec: expiry
first, then the allowlist. -/
def checkAccess (policy : SealPolicy) (requesterAddress : String) (now : Nat) :
    Except SealError Unit :=
  if now > policy.expiresAt then .error .policyExpired
  else if allowlistDenies policy requesterAddress then .error .accessDenied
  else .ok ()

section Seal2

variable (gcmMask : List Nat → List Nat → Nat → Nat)
variable (gcmTagByte : List Nat → List Nat → List Nat → Nat → Nat)

/-- Modelled from `decryptWithSeal` in the source, with `Date.now()` as
the parameter `now`: check expiry, check the allowlist, then decrypt the
ciphertext with the raw key carried in the envelope. -/
def decryptWithSeal (envelope : EncryptedEnvelope) (policy : SealPolicy)
    (requesterAddress : String) (now : Nat) : Except SealError (List Nat) :=
  if now > policy.expiresAt then .error .policyExpired
  else if allowlistDenies policy requesterAddress then .error .accessDenied
  else aesGcmDecrypt gcmMask gcmTagByte envelope.encryptedKey envelope.nonce
    envelope.ciphertext

end Seal2

/-- Modelled from `verifyConsent` in the source: the message is unused;
without a consent requirement the check passes, otherwise it is the plain
equality of the stored signature (possibly absent) with the provided
one. -/
def verifyConsent (policy : SealPolicy) (_message : String) (signature : String) : Bool :=
  if policy.consentRequired then
    match policy.consentSignature with
    | some s => s == signature
    | none => false
  else true

/-! ### Envelope serialization -/

/-- The JSON header `serializeEnvelope` builds, fields in insertion
order. -/
def envelopeHeaderJson (e : EncryptedEnvelope) : Json :=
  .obj [("policyId", .str e.policyId),
        ("nonce", .arr (e.nonce.map (fun b => .num (Int.ofNat b)))),
        ("encryptedKey", .arr (e.encryptedKey.map (fun b => .num (Int.ofNat b)))),
        ("metadata", .obj [("originalSize", .num (e.metadata.originalSize : Int)),
                           ("algorithm", .str e.metadata.algorithm),
                           ("version", .num (e.metadata.version : Int))])]

/-- The 4-byte length prefix: a `Uint32Array` written to the buffer in
host order (little-endian on the platforms the app runs on). -/
def uint32LE (n : Nat) : List Nat :=
  [n % 256, n / 256 % 256, n / 65536 % 256, n / 16777216 % 256]

/-- Modelled from `serializeEnvelope` in the source: 4-byte header
length, UTF-8 JSON header, raw ciphertext. -/
def serializeEnvelope (e : EncryptedEnvelope) : List Nat :=
  uint32LE (utf8Encode (jsonChars (envelopeHeaderJson e))).length
    ++ utf8Encode (jsonChars (envelopeHeaderJson e)) ++ e.ciphertext

/-- The header length declared by the first four bytes. -/
def declaredHeaderLength (data : List Nat) : Nat :=
  data.getD 0 0 + 256 * data.getD 1 0 + 65536 * data.getD 2 0 + 16777216 * data.getD 3 0

/-- The header byte range `data.slice(4, 4 + headerLength)`; as in
JavaScript, the slice clamps to the end of the buffer. -/
def headerBytesOf (data : List Nat) : List Nat :=
  (data.drop 4).take (declaredHeaderLength data)

/-- Property lookup on a parsed JSON value (`header.policyId` and
friends); on duplicate keys the last occurrence wins, as in
`JSON.parse`. -/
def jsGetField (j : Json) (k : String) : Option Json :=
  match j with
  | .obj fs => fs.reverse.lookup k
  | _ => none

/-- Modelled from the spec: the `ToUint8` coercion JavaScript applies to
an element of an array passed to `new Uint8Array(...)`.  Values never
produced by `serializeEnvelope` are approximated. -/
def jsNumToByte : Json → Nat
  | .num n => (n % 256).toNat
  | .bool true => 1
  | _ => 0

/-- Modelled from the spec: `new Uint8Array(x)` — `undefined` and most
non-array values give an empty or zero-filled array, a negative length
throws. -/
def jsToUint8Array : Option Json → Option (List Nat)
  | none => some []
  | some (.arr es) => some (es.map jsNumToByte)
  | some (.num n) => if n < 0 then none else some (List.replicate n.toNat 0)
  | some _ => some []

/-- String field read; a missing or non-string field is `undefined` in
JavaScript and defaults here. -/
def jsStr : Option Json → String
  | some (.str s) => s
  | _ => ""

/-- Numeric field read with the same defaulting. -/
def jsNat : Option Json → Nat
  | some (.num n) => n.toNat
  | _ => 0

/-- Modelled from `deserializeEnvelope` in the source: read the declared
header length, parse the clamped header bytes as JSON (a parse failure is
the thrown `MalformedEnvelopeError`), rebuild the typed arrays, take the
remainder as ciphertext.  `none` models a thrown exception. -/
def deserializeEnvelope (data : List Nat) : Option EncryptedEnvelope :=
  match jsonParse (textDecode (headerBytesOf data)) with
  | none => none
  | some header =>
    match jsToUint8Array (jsGetField header "nonce"),
        jsToUint8Array (jsGetField header "encryptedKey") with
    | some nonce, some encryptedKey =>
      some { policyId := jsStr (jsGetField header "policyId")
             nonce := nonce
             encryptedKey := encryptedKey
             metadata :=
               { originalSize :=
                   jsNat ((jsGetField header "metadata").bind (jsGetField · "originalSize"))
                 algorithm :=
                   jsStr ((jsGetField header "metadata").bind (jsGetField · "algorithm"))
                 version :=
                   jsNat ((jsGetField header "metadata").bind (jsGetField · "version")) }
             ciphertext := data.drop (4 + declaredHeaderLength data) }
    | _, _ => none

/-! ### GCM round trip and the policy gate -/

theorem xorKeystream_length (gm : List Nat → List Nat → Nat → Nat)
    (key nonce : List Nat) (i : Nat) (bs : List Nat) :
    (xorKeystream gm key nonce i bs).length = bs.length := by
  induction bs generalizing i with
  | nil => rfl
  | cons b bs ih => simp [xorKeystream, ih]

theorem xorKeystream_involutive (gm : List Nat → List Nat → Nat → Nat)
    (key nonce : List Nat) (i : Nat) (bs : List Nat) :
    xorKeystream gm key nonce i (xorKeystream gm key nonce i bs) = bs := by
  induction bs generalizing i with
  | nil => rfl
  | cons b bs ih =>
    simp only [xorKeystream, List.cons.injEq]
    exact ⟨by rw [Nat.xor_assoc, Nat.xor_self, Nat.xor_zero], ih (i + 1)⟩

theorem gcmTag_length (gt : List Nat → List Nat → List Nat → Nat → Nat)
    (key nonce body : List Nat) : (gcmTag gt key nonce body).length = 16 := by
  simp [gcmTag]

/-- Decrypting what was encrypted under the same key and nonce restores
the plaintext. -/
theorem aesGcmDecrypt_encrypt (gm : List Nat → List Nat → Nat → Nat)
    (gt : List Nat → List Nat → List Nat → Nat → Nat) (key nonce pt : List Nat) :
    aesGcmDecrypt gm gt key nonce (aesGcmEncrypt gm gt key nonce pt) = .ok pt := by
  have hb := xorKeystream_length gm key nonce 0 pt
  have hlen : (aesGcmEncrypt gm gt key nonce pt).length = pt.length + 16 := by
    simp [aesGcmEncrypt, hb, gcmTag_length]
  have hsub : pt.length + 16 - 16 = (xorKeystream gm key nonce 0 pt).length := by omega
  have htake : (aesGcmEncrypt gm gt key nonce pt).take (pt.length + 16 - 16)
      = xorKeystream gm key nonce 0 pt := by
    rw [hsub, aesGcmEncrypt]
    exact List.take_left _ _
  have hdrop : (aesGcmEncrypt gm gt key nonce pt).drop (pt.length + 16 - 16)
      = gcmTag gt key nonce (xorKeystream gm key nonce 0 pt) := by
    rw [hsub, aesGcmEncrypt]
    exact List.drop_left _ _
  rw [aesGcmDecrypt, hlen, if_neg (by omega), htake, hdrop, if_pos rfl,
    xorKeystream_involutive]

/-- A decryption failure from the cipher itself is always the
authentication failure, never one of the policy errors. -/
theorem aesGcmDecrypt_error (gm : List Nat → List Nat → Nat → Nat)
    (gt : List Nat → List Nat → List Nat → Nat → Nat) (key nonce ct : List Nat)
    (e : SealError) (h : aesGcmDecrypt gm gt key nonce ct = .error e) :
    e = .authenticationFailed := by
  rw [aesGcmDecrypt] at h
  by_cases h1 : ct.length < 16
  · rw [if_pos h1] at h
    exact (Except.error.inj h).symm
  · rw [if_neg h1] at h
    by_cases h2 : ct.drop (ct.length - 16) = gcmTag gt key nonce (ct.take (ct.length - 16))
    · rw [if_pos h2] at h
      exact absurd h (by simp)
    · rw [if_neg h2] at h
      exact (Except.error.inj h).symm

/-- The expiry error is raised exactly when `now` is strictly past
`expiresAt`; the boundary instant itself passes the gate. -/
theorem decryptWithSeal_policyExpired_iff (gm : List Nat → List Nat → Nat → Nat)
    (gt : List Nat → List Nat → List Nat → Nat → Nat) (env : EncryptedEnvelope)
    (policy : SealPolicy) (addr : String) (now : Nat) :
    decryptWithSeal gm gt env policy addr now = .error .policyExpired
      ↔ now > policy.expiresAt := by
  rw [decryptWithSeal]
  by_cases h1 : now > policy.expiresAt
  · rw [if_pos h1]
    simp [h1]
  · rw [if_neg h1]
    by_cases h2 : allowlistDenies policy addr
    · rw [if_pos h2]
      simp [h1]
    · rw [if_neg h2]
      constructor
      · intro h
        exact absurd (aesGcmDecrypt_error gm gt _ _ _ _ h) (by simp)
      · intro h
        exact absurd h h1

/-- The allowlist error is raised, on a not-yet-expired policy, exactly
when an allowlist is present (possibly empty) and the requester is not a
member. -/
theorem decryptWithSeal_accessDenied_iff (gm : List Nat → List Nat → Nat → Nat)
    (gt : List Nat → List Nat → List Nat → Nat → Nat) (env : EncryptedEnvelope)
    (policy : SealPolicy) (addr : String) (now : Nat) (hexp : ¬ now > policy.expiresAt) :
    decryptWithSeal gm gt env policy addr now = .error .accessDenied
      ↔ ∃ l, policy.allowlist = some l ∧ addr ∉ l := by
  rw [decryptWithSeal, if_neg hexp]
  by_cases h2 : allowlistDenies policy addr
  · rw [if_pos h2]
    rw [allowlistDenies] at h2
    constructor
    · intro _
      cases halw : policy.allowlist with
      | none => rw [halw] at h2; exact absurd h2 (by simp)
      | some l =>
        rw [halw] at h2
        refine ⟨l, rfl, ?_⟩
        simpa using h2
    · intro _
      rfl
  · rw [if_neg h2]
    rw [allowlistDenies] at h2
    constructor
    · intro h
      exact absurd (aesGcmDecrypt_error gm gt _ _ _ _ h) (by simp)
    · rintro ⟨l, hl, hmem⟩
      rw [hl] at h2
      simp at h2
      exact absurd h2 hmem

/-- A gate-passing request on a fresh encryption recovers the
plaintext. -/
theorem decryptWithSeal_encrypt (gm : List Nat → List Nat → Nat → Nat)
    (gt : List Nat → List Nat → List Nat → Nat → Nat) (data : List Nat)
    (policy : SealPolicy) (key nonce : List Nat) (addr : String) (now : Nat)
    (hexp : ¬ now > policy.expiresAt) (halw : allowlistDenies policy addr = false) :
    decryptWithSeal gm gt (encryptWithSeal gm gt data policy key nonce) policy addr now
      = .ok data := by
  rw [decryptWithSeal, if_neg hexp, if_neg (by simp [halw])]
  exact aesGcmDecrypt_encrypt gm gt key nonce data

/-! ### Envelope round trip -/

theorem declaredHeaderLength_uint32LE (n : Nat) (rest : List Nat)
    (h : n < 4294967296) : declaredHeaderLength (uint32LE n ++ rest) = n := by
  simp only [declaredHeaderLength, uint32LE, List.cons_append, List.nil_append,
    List.getD_cons_zero, List.getD_cons_succ]
  omega

theorem headerBytesOf_serialize (e : EncryptedEnvelope)
    (h : (utf8Encode (jsonChars (envelopeHeaderJson e))).length < 4294967296) :
    headerBytesOf (serializeEnvelope e) = utf8Encode (jsonChars (envelopeHeaderJson e)) := by
  rw [headerBytesOf, serializeEnvelope, List.append_assoc,
    declaredHeaderLength_uint32LE _ _ h]
  simp only [uint32LE, List.cons_append, List.nil_append, List.drop_succ_cons,
    List.drop_zero]
  exact List.take_left _ _

theorem ciphertext_of_serialize (e : EncryptedEnvelope)
    (h : (utf8Encode (jsonChars (envelopeHeaderJson e))).length < 4294967296) :
    (serializeEnvelope e).drop (4 + declaredHeaderLength (serializeEnvelope e))
      = e.ciphertext := by
  have hdecl : declaredHeaderLength (serializeEnvelope e)
      = (utf8Encode (jsonChars (envelopeHeaderJson e))).length := by
    rw [serializeEnvelope, List.append_assoc]
    exact declaredHeaderLength_uint32LE _ _ h
  rw [hdecl, serializeEnvelope]
  have hlen4 : (uint32LE (utf8Encode (jsonChars (envelopeHeaderJson e))).length
      ++ utf8Encode (jsonChars (envelopeHeaderJson e))).length
      = 4 + (utf8Encode (jsonChars (envelopeHeaderJson e))).length := by
    simp only [List.length_append, List.length_cons, List.length_nil, uint32LE]
  rw [← hlen4]
  exact List.drop_left _ _

/-- The `ToUint8` coercion undoes the `Array.from` embedding byte-wise,
given actual byte values. -/
theorem jsBytes_roundtrip (bs : List Nat) (h : ∀ b ∈ bs, b < 256) :
    (bs.map (fun b => Json.num (Int.ofNat b))).map jsNumToByte = bs := by
  induction bs with
  | nil => rfl
  | cons b bs ih =>
    have hb : b < 256 := h b (by simp)
    have hstep : jsNumToByte (Json.num (Int.ofNat b)) = b := by
      show ((Int.ofNat b) % 256).toNat = b
      have hc : Int.ofNat b = (b : Int) := rfl
      rw [hc, Int.emod_eq_of_lt (by exact_mod_cast Nat.zero_le b) (by exact_mod_cast hb)]
      simp
    simp only [List.map_cons, hstep]
    rw [ih (fun x hx => h x (by simp [hx]))]

/-- Unfolding `deserializeEnvelope` past a successful header parse. -/
theorem deserializeEnvelope_eq (data : List Nat) (j : Json)
    (h : jsonParse (textDecode (headerBytesOf data)) = some j) :
    deserializeEnvelope data =
      match jsToUint8Array (jsGetField j "nonce"),
          jsToUint8Array (jsGetField j "encryptedKey") with
      | some nonce, some encryptedKey =>
        some { policyId := jsStr (jsGetField j "policyId")
               nonce := nonce
               encryptedKey := encryptedKey
               metadata :=
                 { originalSize :=
                     jsNat ((jsGetField j "metadata").bind (jsGetField · "originalSize"))
                   algorithm :=
                     jsStr ((jsGetField j "metadata").bind (jsGetField · "algorithm"))
                   version :=
                     jsNat ((jsGetField j "metadata").bind (jsGetField · "version")) }
               ciphertext := data.drop (4 + declaredHeaderLength data) }
      | _, _ => none := by
  rw [deserializeEnvelope, h]

/-- A parse failure on the clamped header bytes makes deserialization
fail. -/
theorem deserializeEnvelope_parseFail (data : List Nat)
    (h : jsonParse (textDecode (headerBytesOf data)) = none) :
    deserializeEnvelope data = none := by
  rw [deserializeEnvelope, h]

/-- Field-wise envelope round trip: serialization followed by
deserialization restores every field, provided the stored arrays hold
byte values and the header fits the 4-byte length prefix. -/
theorem deserialize_serialize (e : EncryptedEnvelope)
    (hn : ∀ b ∈ e.nonce, b < 256) (hk : ∀ b ∈ e.encryptedKey, b < 256)
    (hlen : (utf8Encode (jsonChars (envelopeHeaderJson e))).length < 4294967296) :
    deserializeEnvelope (serializeEnvelope e) = some e := by
  have hparse : jsonParse (textDecode (headerBytesOf (serializeEnvelope e)))
      = some (envelopeHeaderJson e) := by
    rw [headerBytesOf_serialize e hlen]
    obtain ⟨t, ht⟩ : ∃ t, jsonChars (envelopeHeaderJson e) = lbraceC :: t := ⟨_, rfl⟩
    rw [ht, textDecode_encode_cons lbraceC t (by decide), ← ht]
    exact jsonParse_jsonChars _
  rw [deserializeEnvelope_eq _ _ hparse]
  obtain ⟨ct, nn, pid, ek, os, alg, ver⟩ := e
  have g2 : jsGetField (envelopeHeaderJson ⟨ct, nn, pid, ek, os, alg, ver⟩) "nonce"
      = some (.arr (nn.map (fun b => .num (Int.ofNat b)))) := rfl
  have g3 : jsGetField (envelopeHeaderJson ⟨ct, nn, pid, ek, os, alg, ver⟩) "encryptedKey"
      = some (.arr (ek.map (fun b => .num (Int.ofNat b)))) := rfl
  rw [g2, g3]
  have u2 : jsToUint8Array (some (.arr (nn.map (fun b => .num (Int.ofNat b)))))
      = some ((nn.map (fun b => .num (Int.ofNat b))).map jsNumToByte) := rfl
  have u3 : jsToUint8Array (some (.arr (ek.map (fun b => .num (Int.ofNat b)))))
      = some ((ek.map (fun b => .num (Int.ofNat b))).map jsNumToByte) := rfl
  rw [u2, u3, jsBytes_roundtrip nn hn, jsBytes_roundtrip ek hk]
  have hct := ciphertext_of_serialize ⟨ct, nn, pid, ek, os, alg, ver⟩ hlen
  have g1 : jsStr (jsGetField (envelopeHeaderJson ⟨ct, nn, pid, ek, os, alg, ver⟩)
      "policyId") = pid := rfl
  have g4a : jsNat ((jsGetField (envelopeHeaderJson ⟨ct, nn, pid, ek, os, alg, ver⟩)
      "metadata").bind (jsGetField · "originalSize")) = ((os : Int)).toNat := rfl
  have g4b : jsStr ((jsGetField (envelopeHeaderJson ⟨ct, nn, pid, ek, os, alg, ver⟩)
      "metadata").bind (jsGetField · "algorithm")) = alg := rfl
  have g4c : jsNat ((jsGetField (envelopeHeaderJson ⟨ct, nn, pid, ek, os, alg, ver⟩)
      "metadata").bind (jsGetField · "version")) = ((ver : Int)).toNat := rfl
  rw [g1, g4a, g4b, g4c, hct]
  simp

/-! ## Concrete instances used by the witnesses -/

/-- Decidable equality on `Except`, for evaluating the concrete
instances. -/
instance exceptDecEq {ε α : Type} [DecidableEq ε] [DecidableEq α] :
    DecidableEq (Except ε α)
  | .ok a, .ok b =>
    if h : a = b then .isTrue (by rw [h])
    else .isFalse (fun hc => h (Except.ok.inj hc))
  | .error a, .error b =>
    if h : a = b then .isTrue (by rw [h])
    else .isFalse (fun hc => h (Except.error.inj hc))
  | .ok _, .error _ => .isFalse (fun hc => Except.noConfusion hc)
  | .error _, .ok _ => .isFalse (fun hc => Except.noConfusion hc)

/-- The bottom level of the built tree is the padded leaf list. -/
theorem buildLevels_head (sha256 : List Nat → String) (l : List String) :
    (buildLevels sha256 l).getD 0 [] = l := by
  by_cases h : l.length ≤ 1
  · rw [buildLevels_small sha256 l h]
    rfl
  · rw [buildLevels_step sha256 l (by omega)]
    rfl

/-- A stand-in digest function for concrete evaluation: injective enough
to distinguish the inputs the witnesses use. -/
def sha0 : List Nat → String :=
  fun bs => String.mk ('h' :: bs.map (fun b => Char.ofNat (97 + b % 16)))

/-- A stand-in GCM key stream for concrete evaluation. -/
def gm0 : List Nat → List Nat → Nat → Nat := fun _ _ _ => 0

/-- A stand-in GCM tag function for concrete evaluation. -/
def gt0 : List Nat → List Nat → List Nat → Nat → Nat := fun _ _ _ _ => 0

/-- A policy with no allowlist, expiring at time 1000. -/
def policyNoAllow : SealPolicy :=
  { id := "p-open", type := .timeLock, retentionDays := 30, consentRequired := false
    consentSignature := none, threshold := none, allowlist := none
    expiresAt := 1000, createdAt := 0 }

/-- A policy whose allowlist is present but empty. -/
def policyEmptyAllow : SealPolicy :=
  { id := "p-empty", type := .allowlist, retentionDays := 30, consentRequired := false
    consentSignature := none, threshold := none, allowlist := some []
    expiresAt := 1000, createdAt := 0 }

/-- The allowlist-denial scenario policy: only `0xAAA` is listed. -/
def policyAllowAAA : SealPolicy :=
  { id := "p-list", type := .allowlist, retentionDays := 30, consentRequired := false
    consentSignature := none, threshold := none, allowlist := some ["0xAAA"]
    expiresAt := 1000, createdAt := 0 }

/-- A small envelope with empty ciphertext. -/
def envC5 : EncryptedEnvelope :=
  { ciphertext := [], nonce := [1, 2], policyId := "p", encryptedKey := [3]
    metadata := { originalSize := 0, algorithm := "AES-256-GCM", version := 1 } }

/-- The one-chunk tree over the data `[7]`. -/
def t1 : MerkleTree :=
  { root := sha0 [7], leaves := [sha0 [7]], depth := 0, nodes := [[sha0 [7]]] }

/-! ## The claims -/

/-- Claim C1: for every byte sequence (including the empty one),
`createCommitment` builds a tree on which `generateProof` succeeds at
every valid leaf index and `verifyProof` accepts the proof against the
root — for every digest function. -/
theorem c1_commitment_proof_roundtrip (sha256 : List Nat → String) (data : List Nat) :
    ∃ c tree, createCommitment sha256 data = .ok (c, tree) ∧
      ∀ i, i < tree.leaves.length →
        ∃ p, generateProof tree i = .ok p ∧ verifyProof sha256 tree.root p = true := by
  obtain ⟨tree, hok, htree⟩ := createCommitment_ok sha256 data
  refine ⟨tree.root, tree, hok, ?_⟩
  intro i hi
  obtain ⟨p, hgen, hslen, hver, hleaf, hidx⟩ :=
    generateProof_verify sha256 (commitChunks data) tree htree i hi
  exact ⟨p, hgen, hver⟩

/-- Claim C2 counterexample: a request at exactly `expiresAt` is NOT
denied — with no other constraint it decrypts successfully, so the gate
does not treat `now == expiresAt` as expired. -/
theorem c2_counterexample :
    decryptWithSeal gm0 gt0 (encryptWithSeal gm0 gt0 [1, 2, 3] policyNoAllow [7] [9])
      policyNoAllow "0xA" policyNoAllow.expiresAt = .ok [1, 2, 3] := by decide

/-- Claim C2 (amended): the expiry comparison is strict — a request at
`expiresAt` itself passes the gate and decrypts, and the expiry error is
raised exactly when `now > expiresAt`. -/
theorem c2_strict_expiry (gm : List Nat → List Nat → Nat → Nat)
    (gt : List Nat → List Nat → List Nat → Nat → Nat) (data : List Nat)
    (policy : SealPolicy) (key nonce : List Nat) (addr : String)
    (hal : policy.allowlist = none) :
    (decryptWithSeal gm gt (encryptWithSeal gm gt data policy key nonce) policy addr
      policy.expiresAt = .ok data) ∧
    (decryptWithSeal gm gt (encryptWithSeal gm gt data policy key nonce) policy addr
      (policy.expiresAt + 1) = .error .policyExpired) ∧
    (∀ now, decryptWithSeal gm gt (encryptWithSeal gm gt data policy key nonce) policy
      addr now = .error .policyExpired ↔ now > policy.expiresAt) := by
  refine ⟨?_, ?_, ?_⟩
  · exact decryptWithSeal_encrypt gm gt data policy key nonce addr policy.expiresAt
      (by omega) (by simp [allowlistDenies, hal])
  · rw [decryptWithSeal, if_pos (by omega)]
  · intro now
    exact decryptWithSeal_policyExpired_iff gm gt _ policy addr now

/-- Claim C2 witness: the boundary behaviour at the concrete policy
expiring at 1000. -/
theorem c2_witness :
    (decryptWithSeal gm0 gt0 (encryptWithSeal gm0 gt0 [5] policyNoAllow [7] [9])
      policyNoAllow "0xA" policyNoAllow.expiresAt = .ok [5]) ∧
    (decryptWithSeal gm0 gt0 (encryptWithSeal gm0 gt0 [5] policyNoAllow [7] [9])
      policyNoAllow "0xA" (policyNoAllow.expiresAt + 1) = .error .policyExpired) ∧
    (∀ now, decryptWithSeal gm0 gt0 (encryptWithSeal gm0 gt0 [5] policyNoAllow [7] [9])
      policyNoAllow "0xA" now = .error .policyExpired ↔ now > policyNoAllow.expiresAt) :=
  c2_strict_expiry gm0 gt0 [5] policyNoAllow [7] [9] "0xA" rfl

/-- Claim C3 counterexample: a present-but-empty allowlist DOES raise the
access-denied error (for every requester), because an empty array is
truthy in JavaScript — the claim says no such error can arise then. -/
theorem c3_counterexample :
    decryptWithSeal gm0 gt0 (encryptWithSeal gm0 gt0 [5] policyEmptyAllow [7] [9])
      policyEmptyAllow "0xBBB" 0 = .error .accessDenied := by decide

/-- Claim C3 (amended): on a not-yet-expired policy, the access-denied
error is raised exactly when an allowlist is PRESENT (empty included) and
the requester is not a member; absence of an allowlist never denies, and
the denial is independent of the ciphertext. -/
theorem c3_allowlist_denial (gm : List Nat → List Nat → Nat → Nat)
    (gt : List Nat → List Nat → List Nat → Nat → Nat) (env : EncryptedEnvelope)
    (policy : SealPolicy) (addr : String) (now : Nat)
    (hexp : ¬ now > policy.expiresAt) :
    decryptWithSeal gm gt env policy addr now = .error .accessDenied
      ↔ ∃ l, policy.allowlist = some l ∧ addr ∉ l :=
  decryptWithSeal_accessDenied_iff gm gt env policy addr now hexp

/-- Claim C3 witness: the spec scenario — allowlist `["0xAAA"]`,
requester `0xBBB` — denied on an arbitrary concrete envelope. -/
theorem c3_witness :
    decryptWithSeal gm0 gt0 (encryptWithSeal gm0 gt0 [5] policyAllowAAA [7] [9])
      policyAllowAAA "0xBBB" 0 = .error .accessDenied :=
  (c3_allowlist_denial gm0 gt0 (encryptWithSeal gm0 gt0 [5] policyAllowAAA [7] [9])
    policyAllowAAA "0xBBB" 0 (by decide)).mpr ⟨["0xAAA"], rfl, by decide⟩

/-- Claim C4: on an unexpired policy whose allowlist constraint the
requester satisfies (no list, or listed), decrypting a fresh encryption
returns the plaintext byte-for-byte — for every key stream and tag
function. -/
theorem c4_encrypt_decrypt (gm : List Nat → List Nat → Nat → Nat)
    (gt : List Nat → List Nat → List Nat → Nat → Nat) (data : List Nat)
    (policy : SealPolicy) (key nonce : List Nat) (addr : String) (now : Nat)
    (hexp : ¬ now > policy.expiresAt)
    (hal : policy.allowlist = none ∨ ∃ l, policy.allowlist = some l ∧ addr ∈ l) :
    decryptWithSeal gm gt (encryptWithSeal gm gt data policy key nonce) policy addr now
      = .ok data := by
  apply decryptWithSeal_encrypt gm gt data policy key nonce addr now hexp
  rcases hal with h | ⟨l, hl, hm⟩
  · simp [allowlistDenies, h]
  · simp [allowlistDenies, hl, hm]

/-- Claim C4 witness: a concrete decryption at `now = createdAt`
recovering the plaintext. -/
theorem c4_witness :
    decryptWithSeal gm0 gt0 (encryptWithSeal gm0 gt0 [10, 20] policyNoAllow [7] [9])
      policyNoAllow "0xA" 0 = .ok [10, 20] :=
  c4_encrypt_decrypt gm0 gt0 [10, 20] policyNoAllow [7] [9] "0xA" 0 (by decide) (.inl rfl)

/-- Claim C5: serialization followed by deserialization restores the
envelope field-wise — ciphertext (zero-length included), nonce, policyId,
encryptedKey and all three metadata fields — whenever the stored arrays
hold byte values and the header fits the 4-byte length prefix. -/
theorem c5_envelope_roundtrip (e : EncryptedEnvelope)
    (hn : ∀ b ∈ e.nonce, b < 256) (hk : ∀ b ∈ e.encryptedKey, b < 256)
    (hlen : (utf8Encode (jsonChars (envelopeHeaderJson e))).length < 4294967296) :
    deserializeEnvelope (serializeEnvelope e) = some e :=
  deserialize_serialize e hn hk hlen

set_option maxRecDepth 10000 in
/-- Claim C5 witness: the round trip on a concrete envelope with empty
ciphertext. -/
theorem c5_witness : deserializeEnvelope (serializeEnvelope envC5) = some envC5 :=
  c5_envelope_roundtrip envC5 (by decide) (by decide) (by decide)

/-- Claim C6 counterexample: the declared header length 100 exceeds the
one remaining byte, yet deserialization SUCCEEDS — the JavaScript slice
clamps, the byte `5` parses as JSON, and every field silently defaults —
so an over-declared length does not imply a failure. -/
theorem c6_counterexample :
    declaredHeaderLength [100, 0, 0, 0, 53] = 100 ∧
      (deserializeEnvelope [100, 0, 0, 0, 53]).isSome = true := by decide

/-- A number literal with a fraction is accepted, as by `JSON.parse`. -/
theorem jsonParse_fraction_ok : (jsonParse ['1', '.', '5']).isSome = true := by decide

/-- A redundant leading zero is rejected, as by `JSON.parse`. -/
theorem jsonParse_leading_zero_fails : jsonParse ['0', '5'] = none := rfl

/-- A leading byte-order mark is stripped, as by `TextDecoder.decode`. -/
theorem textDecode_strips_bom : textDecode [239, 187, 191, 53] = ['5'] := by decide

/-- Claim C6 (amended): the declared header length is never checked
against the buffer — the slice clamps, so an over-declared length does
not by itself make deserialization fail (middle conjunct).  Failure is
governed by the clamped header byte range instead: a header that fails to
parse as JSON always fails deserialization (first conjunct), but not only
those — a header parsing as an object whose `nonce` is `-1` also fails,
as the typed-array construction throws (last conjunct). -/
theorem c6_clamped_header :
    (∀ data : List Nat, jsonParse (textDecode (headerBytesOf data)) = none →
      deserializeEnvelope data = none) ∧
    (∃ data : List Nat, (data.drop 4).length < declaredHeaderLength data ∧
      (deserializeEnvelope data).isSome = true) ∧
    (∃ data : List Nat,
      (jsonParse (textDecode (headerBytesOf data))).isSome = true ∧
      deserializeEnvelope data = none) := by
  refine ⟨fun data h => deserializeEnvelope_parseFail data h, ?_, ?_⟩
  · exact ⟨[100, 0, 0, 0, 53], by decide, by decide⟩
  · exact ⟨[12, 0, 0, 0, 123, 34, 110, 111, 110, 99, 101, 34, 58, 45, 49, 125],
      by decide, by decide⟩

/-- Claim C7: `hashPair` is symmetric in its two arguments, and
`verifyProof` gives the same answer on two proofs that share leaf and
siblings, whatever their `pathIndices` (and `leafIndex`) hold. -/
theorem c7_pairing_symmetric (sha256 : List Nat → String) (a b root : String)
    (p q : MerkleProof) (hleaf : p.leaf = q.leaf) (hsib : p.siblings = q.siblings) :
    hashPair sha256 a b = hashPair sha256 b a ∧
      verifyProof sha256 root p = verifyProof sha256 root q := by
  refine ⟨hashPair_comm sha256 a b, ?_⟩
  rw [verifyProof, verifyProof, hleaf, hsib]
  rw [foldProof_pathIndices sha256 q.siblings q.leaf p.pathIndices q.pathIndices]

/-- Claim C7 witness: concrete proofs differing only in `leafIndex` and
`pathIndices` verify identically. -/
theorem c7_witness :
    hashPair sha0 "a" "b" = hashPair sha0 "b" "a" ∧
      verifyProof sha0 "r" ⟨"x", 0, ["s"], [0]⟩ = verifyProof sha0 "r" ⟨"x", 5, ["s"], [1]⟩ :=
  c7_pairing_symmetric sha0 "a" "b" "r" ⟨"x", 0, ["s"], [0]⟩ ⟨"x", 5, ["s"], [1]⟩ rfl rfl

/-- Claim C8: every tree `createMerkleTree` returns has a power-of-two
bottom level equal to the leaves padded by repeating the last leaf, every
level below the root has even length, and `generateProof` at any valid
index records exactly `depth` siblings (the defensive bound check never
skips one). -/
theorem c8_tree_invariants (sha256 : List Nat → String) (chunks : List (List Nat))
    (tree : MerkleTree) (hok : createMerkleTree sha256 chunks = .ok tree) :
    (∃ k, (tree.nodes.getD 0 []).length = 2 ^ k) ∧
    (∃ m, tree.nodes.getD 0 []
      = tree.leaves ++ List.replicate m (tree.leaves.getLastD "")) ∧
    (∀ lv, lv + 1 < tree.nodes.length → (tree.nodes.getD lv []).length % 2 = 0) ∧
    (∀ i, i < tree.leaves.length →
      ∃ p, generateProof tree i = .ok p ∧ p.siblings.length = tree.depth) := by
  have hne : chunks ≠ [] := by
    intro hc
    subst hc
    simp [createMerkleTree] at hok
  obtain ⟨tree', k, m, hok', hleaves, hnodes, hdepth, hroot, hpow, hrep⟩ :=
    createMerkleTree_spec sha256 chunks hne
  rw [hok'] at hok
  have htree : tree = tree' := (Except.ok.inj hok).symm
  subst htree
  have hhead : tree.nodes.getD 0 [] = padTo tree.leaves tree.leaves.length := by
    rw [hnodes]
    exact buildLevels_head sha256 _
  have hshape := buildLevels_shape sha256 k _ hpow
  refine ⟨⟨k, ?_⟩, ⟨m, ?_⟩, ?_, ?_⟩
  · rw [hhead, hpow]
  · rw [hhead, hrep]
  · intro lv hlv
    have hlen : tree.nodes.length = k + 1 := by
      rw [hnodes]
      exact hshape.1
    have hsz := hshape.2 lv (by omega)
    rw [hnodes, hsz]
    obtain ⟨s, hs⟩ : ∃ s, k - lv = s + 1 := ⟨k - lv - 1, by omega⟩
    rw [hs, Nat.pow_succ]
    omega
  · intro i hi
    obtain ⟨p, hgen, hslen, hver, hleaf, hidx⟩ :=
      generateProof_verify sha256 chunks tree hok' i hi
    exact ⟨p, hgen, hslen⟩

set_option maxRecDepth 10000 in
/-- Claim C8 witness: the invariants on the concrete one-chunk tree. -/
theorem c8_witness :
    (∃ k, (t1.nodes.getD 0 []).length = 2 ^ k) ∧
    (∃ m, t1.nodes.getD 0 []
      = t1.leaves ++ List.replicate m (t1.leaves.getLastD "")) ∧
    (∀ lv, lv + 1 < t1.nodes.length → (t1.nodes.getD lv []).length % 2 = 0) ∧
    (∀ i, i < t1.leaves.length →
      ∃ p, generateProof t1 i = .ok p ∧ p.siblings.length = t1.depth) :=
  c8_tree_invariants sha0 [[7]] t1 (by decide)

/-- Claim C9: `createCommitmentWithMetadata` returns the Merkle root over
the 16 KiB chunks as commitment, the digest of the UTF-8 JSON
serialization of the metadata (fields in order `retentionDays`,
`consentSigned`, `timestamp`, as `metadataJson` lays out) as
`metadataHash`, and their `hashPair` as `combinedCommitment`. -/
theorem c9_combined_commitment (sha256 : List Nat → String) (data : List Nat)
    (m : CommitMetadata) :
    ∃ r tree, createCommitmentWithMetadata sha256 data m = .ok r ∧
      createMerkleTree sha256 (commitChunks data) = .ok tree ∧
      r.commitment = tree.root ∧
      r.metadataHash = sha256 (utf8Encode (jsonChars (metadataJson m))) ∧
      r.combinedCommitment = hashPair sha256 tree.root r.metadataHash := by
  obtain ⟨tree, hok, htree⟩ := createCommitment_ok sha256 data
  have h : createCommitmentWithMetadata sha256 data m = .ok
      { commitment := tree.root
        metadataHash := sha256 (utf8Encode (jsonStringify (metadataJson m)).data)
        combinedCommitment := hashPair sha256 tree.root
          (sha256 (utf8Encode (jsonStringify (metadataJson m)).data)) } := by
    simp [createCommitmentWithMetadata, hok, Except.map]
  exact ⟨_, tree, h, htree, rfl, rfl, rfl⟩

/-- Claim C10: `verifyConsent` ignores its message argument, passes
whenever no consent is required, and otherwise is the plain equality of
the stored (possibly absent) signature with the provided one — no
cryptography involved. -/
theorem c10_verify_consent (policy : SealPolicy) (m1 m2 s : String) :
    verifyConsent policy m1 s = verifyConsent policy m2 s ∧
      verifyConsent policy m1 s
        = if policy.consentRequired then policy.consentSignature == some s else true := by
  refine ⟨rfl, ?_⟩
  rw [verifyConsent]
  cases policy.consentRequired with
  | false => rfl
  | true =>
    cases policy.consentSignature with
    | none => rfl
    | some t => rfl

end ZkStorage
